import Mathlib

/-!
Shallow embedding of the MC Object Disassembler core of this repository
(`lib/MC/MCAnalysis/MCObjectDisassembler.cpp`), together with theorems
checking the natural-language specification against it.

Machine integers: all addresses and sizes in the source are `uint64_t`.
In the address ranges exercised here no arithmetic wraps, so they are
modelled as `Nat`; subtraction only occurs where the source guarantees
the minuend is at least the subtrahend.

Instructions (`MCInst`) are opaque to all of the modelled code: only the
analysis oracle inspects them.  They are modelled as `Nat`.
-/

namespace MCOD

/-- A decoded instruction as stored in a text atom
(`MCDecodedInst`: instruction, address, size). -/
structure MCDecodedInst where
  Inst : Nat
  Address : Nat
  Size : Nat
deriving DecidableEq, Repr

/-- `StringRef::operator<`: lexicographic byte order (memcmp, then length). -/
def bytesLt : List Nat → List Nat → Bool
  | [], [] => false
  | [], _ :: _ => true
  | _ :: _, [] => false
  | a :: as, b :: bs => if a < b then true else if b < a then false else bytesLt as bs

/-- Ordered insert for `sortLe`. -/
def insertLe {α : Type} (le : α → α → Bool) (x : α) : List α → List α
  | [] => [x]
  | y :: ys => if le x y then x :: y :: ys else y :: insertLe le x ys

/-- Insertion sort.  Models `std::sort` at the three sort sites of the
source: it produces one valid (sorted) reordering of the input.  (The
source's `std::sort` leaves the order of tied elements unspecified; the
theorems below do not depend on tie order.) -/
def sortLe {α : Type} (le : α → α → Bool) : List α → List α
  | [] => []
  | x :: xs => insertLe le x (sortLe le xs)

/-- A memory region backed by section bytes
(`StringRefMemoryObject(Contents, StartAddr)`). -/
structure Region where
  Base : Nat
  Bytes : List Nat
deriving DecidableEq, Repr

/-- Modelled from the spec: `StringRefMemoryObject::getByteRange(Addr, Size)`
is not under `src/`; per §4.C it fetches "up to `Size` bytes starting at
that address" from the region's backing bytes (callers always pass
`Base ≤ Addr`). -/
def getByteRange (r : Region) (addr sz : Nat) : List Nat :=
  (r.Bytes.drop (addr - r.Base)).take sz

/-- A `TempInstKey` (raw bytes plus index into `TempInstValues`). -/
structure TempInstKey where
  RawBytes : List Nat
  ValueIdx : Nat
deriving DecidableEq, Repr

/-- A `CachedInstEntry` (raw bytes plus the decoded instruction). -/
structure CachedInstEntry where
  RawBytes : List Nat
  Inst : Nat
deriving DecidableEq, Repr

/-- The mutable members of `MCObjectDisassembler` (constructor at line 41:
cache empty, `LongestCachedRawBytes`, `Uniqued`, `Translated` all zero). -/
structure ODState where
  SectionRegions : List Region
  CachedInsts : List CachedInstEntry
  LongestCachedRawBytes : Nat
  TempInstKeys : List TempInstKey
  TempInstValues : List Nat
  Uniqued : Nat
  Translated : Nat
deriving DecidableEq, Repr

/-- The freshly constructed disassembler state. -/
def initODState : ODState :=
  ⟨[], [], 0, [], [], 0, 0⟩

/-- `std::lower_bound(CachedInsts.begin(), CachedInsts.end(), RawBytes)`:
index of the first entry whose raw bytes are not less than `v`
(`CachedInsts` is kept sorted, so the linear scan agrees with the
binary search of the source). -/
def lowerBoundIdx : List CachedInstEntry → List Nat → Nat
  | [], _ => 0
  | e :: l, v => if bytesLt e.RawBytes v then lowerBoundIdx l v + 1 else 0

/-- `MCObjectDisassembler::findCachedInstruction` (lines 374-406).
Returns `some (Inst, InstSize)` in place of the source's `true` with
out-parameters. -/
def findCachedInstruction (st : ODState) (r : Region) (addr : Nat) :
    Option (Nat × Nat) :=
  if r.Base + r.Bytes.length < addr then none
  else
    match st.CachedInsts.get?
        (lowerBoundIdx st.CachedInsts (getByteRange r addr st.LongestCachedRawBytes)) with
    | none => none
    | some e =>
      if e.RawBytes.isPrefixOf (getByteRange r addr st.LongestCachedRawBytes) then
        some (e.Inst, e.RawBytes.length)
      else none

/-- The comparator on `TempInstKey` used by `std::sort(TempInstKeys...)`
(raw-byte order), as a non-strict `le` for `sortLe`. -/
def tempKeyLe (a b : TempInstKey) : Bool :=
  !bytesLt b.RawBytes a.RawBytes

/-- The comparator on `TempInstKeyCount` (`RHS.Count < Count`, i.e.
descending by count), as a non-strict `le` for `sortLe`.  Pairs are
`(KeyIdx, Count)`. -/
def keyCountLe (a b : Nat × Nat) : Bool :=
  !(a.2 < b.2)

/-- The comparator on `CachedInstEntry` used by `std::sort(CachedInsts...)`
(raw-byte order), as a non-strict `le` for `sortLe`. -/
def cachedLe (a b : CachedInstEntry) : Bool :=
  !bytesLt b.RawBytes a.RawBytes

/-- The duplicate-run counting sweep of `uniqueTempInstructions`
(lines 455-465): walk the sorted keys, pushing a fresh `(KeyIdx, Count)`
whenever the raw bytes differ from the previous key, else incrementing
the last count.  `ki` is the current index, `last` the previous key's raw
bytes. -/
def countRunsAux : List TempInstKey → Nat → Option (List Nat × Nat × Nat) →
    List (Nat × Nat)
  | [], _, none => []
  | [], _, some (_, ki, c) => [(ki, c)]
  | k :: ks, i, none => countRunsAux ks (i + 1) (some (k.RawBytes, i, 1))
  | k :: ks, i, some (lb, ki, c) =>
    if lb = k.RawBytes then countRunsAux ks (i + 1) (some (lb, ki, c + 1))
    else (ki, c) :: countRunsAux ks (i + 1) (some (k.RawBytes, i, 1))

def countRuns (keys : List TempInstKey) : List (Nat × Nat) :=
  countRunsAux keys 0 none

/-- `MCObjectDisassembler::uniqueTempInstructions` (lines 429-506):
merge the cached entries into the temp keys as seeds, sort by raw bytes,
count duplicate runs, sort runs by descending count, rebuild the cache
from the top 2000 runs (updating `LongestCachedRawBytes` by `max` with
each retained key length), re-sort the cache, clear the temp buffers. -/
def uniqueTempInstructions (st : ODState) : ODState :=
  let seeded := st.CachedInsts.foldl
    (fun (p : List TempInstKey × List Nat) ce =>
      (p.1 ++ [⟨ce.RawBytes, p.2.length⟩], p.2 ++ [ce.Inst]))
    (st.TempInstKeys, st.TempInstValues)
  let keys := sortLe tempKeyLe seeded.1
  let vals := seeded.2
  let dupKeys := sortLe keyCountLe (countRuns keys)
  let retained := dupKeys.take 2000
  let newCache := retained.map (fun kc =>
    let key := keys.getD kc.1 ⟨[], 0⟩
    (⟨key.RawBytes, vals.getD key.ValueIdx 0⟩ : CachedInstEntry))
  let newLongest := retained.foldl
    (fun acc kc => max (keys.getD kc.1 ⟨[], 0⟩).RawBytes.length acc)
    st.LongestCachedRawBytes
  { st with
    CachedInsts := sortLe cachedLe newCache
    LongestCachedRawBytes := newLongest
    TempInstKeys := []
    TempInstValues := [] }

/-- `MCObjectDisassembler::addTempInstruction` (lines 408-427): push the
raw bytes and instruction onto the temp buffers; trigger uniquing when
more than 5000 values accumulate. -/
def addTempInstruction (st : ODState) (inst : Nat) (rawBytes : List Nat) :
    ODState :=
  let st' := { st with
    TempInstKeys := st.TempInstKeys ++ [⟨rawBytes, st.TempInstValues.length⟩]
    TempInstValues := st.TempInstValues ++ [inst] }
  if st'.TempInstValues.length > 5000 then uniqueTempInstructions st' else st'

/-! ## The MCModule / MCAtom data model.

`MCModule.cpp` / `MCAtom.cpp` of this repository's MC analysis library are
not under `src/`; their operations are modelled from the spec (§3 "Data
Model", §4.B "Atom Store"), with atoms and functions identified by their
creation index (creation is monotone: "no atom deletion, only splitting"). -/

/-- A text atom: inclusive address range, name, the next instruction
address, and the decoded instruction list. -/
structure MCTextAtomData where
  Begin : Nat
  AtomEnd : Nat
  NextInstAddress : Nat
  Name : String
  Insts : List MCDecodedInst
deriving DecidableEq, Repr

/-- A data atom: inclusive address range, name, raw bytes. -/
structure MCDataAtomData where
  Begin : Nat
  AtomEnd : Nat
  Name : String
  Data : List Nat
deriving DecidableEq, Repr

inductive MCAtom where
  | text (t : MCTextAtomData)
  | data (d : MCDataAtomData)
deriving DecidableEq, Repr

def MCAtom.beginAddr : MCAtom → Nat
  | .text t => t.Begin
  | .data d => d.Begin

def MCAtom.endAddr : MCAtom → Nat
  | .text t => t.AtomEnd
  | .data d => d.AtomEnd

/-- A basic block: the text atom it references and its successor and
predecessor lists (block indices within the same function). -/
structure MCBasicBlock where
  AtomId : Nat
  Succs : List Nat
  Preds : List Nat
deriving DecidableEq, Repr

/-- A function: name and basic blocks. -/
structure MCFunction where
  Name : String
  Blocks : List MCBasicBlock
deriving DecidableEq, Repr

/-- A module: entrypoint, atoms and functions (each owned by creation
index). -/
structure MCModule where
  Entrypoint : Nat
  Atoms : List MCAtom
  Functions : List MCFunction
deriving DecidableEq, Repr

/-- Modelled from the spec: `MCModule::createTextAtom` — a fresh empty
text atom over `[b, e]`; returns the module and the new atom's id. -/
def createTextAtom (m : MCModule) (b e : Nat) : MCModule × Nat :=
  ({ m with Atoms := m.Atoms ++ [.text ⟨b, e, b, "", []⟩] }, m.Atoms.length)

/-- Modelled from the spec: `MCModule::createDataAtom`. -/
def createDataAtom (m : MCModule) (b e : Nat) : MCModule × Nat :=
  ({ m with Atoms := m.Atoms ++ [.data ⟨b, e, "", []⟩] }, m.Atoms.length)

/-- `MCAtom::setName`. -/
def setAtomName (m : MCModule) (aid : Nat) (n : String) : MCModule :=
  match m.Atoms.get? aid with
  | some (.text t) => { m with Atoms := m.Atoms.set aid (.text { t with Name := n }) }
  | some (.data d) => { m with Atoms := m.Atoms.set aid (.data { d with Name := n }) }
  | none => m

/-- Modelled from the spec (§3): `MCTextAtom::addInst(I, Size)` appends the
instruction at `NextInstAddress`, growing the atom's end so that the
instructions stay within `[Begin, End]`; no-op on a data atom or a bad id
(the source cannot reach either). -/
def addInst (m : MCModule) (aid : Nat) (inst sz : Nat) : MCModule :=
  match m.Atoms.get? aid with
  | some (.text t) =>
    let newEnd := if t.AtomEnd < t.NextInstAddress + sz - 1
      then t.NextInstAddress + sz - 1 else t.AtomEnd
    { m with Atoms := m.Atoms.set aid (.text
        { t with AtomEnd := newEnd
                 Insts := t.Insts ++ [⟨inst, t.NextInstAddress, sz⟩]
                 NextInstAddress := t.NextInstAddress + sz }) }
  | _ => m

/-- Modelled from the spec (§3): `MCDataAtom::addData(D)` appends a byte,
growing the end by one when the data would exceed the range ("a byte
sequence of the same length as its range"). -/
def addData (m : MCModule) (aid : Nat) (b : Nat) : MCModule :=
  match m.Atoms.get? aid with
  | some (.data d) =>
    let d' := { d with Data := d.Data ++ [b] }
    let d'' := if d.AtomEnd + 1 - d.Begin < d'.Data.length
      then { d' with AtomEnd := d.AtomEnd + 1 } else d'
    { m with Atoms := m.Atoms.set aid (.data d'') }
  | _ => m

/-- Modelled from the spec (§4.B split contract): `MCTextAtom::split(a)`
on a text atom with `Begin < a ≤ End` partitions the instruction list at
the unique instruction whose address equals `a`; the original atom is
truncated to `[Begin, a-1]` and a new atom `[a, End]` (inheriting the
name) is created.  Fails (`none`) on a mid-instruction split point, a
data atom, or a split point outside `(Begin, End]`. -/
def splitTextAtom (m : MCModule) (aid : Nat) (a : Nat) : Option (MCModule × Nat) :=
  match m.Atoms.get? aid with
  | some (.text t) =>
    if t.Begin < a ∧ a ≤ t.AtomEnd then
      let lows := t.Insts.takeWhile (fun i => i.Address < a)
      let highs := t.Insts.dropWhile (fun i => i.Address < a)
      match highs with
      | [] => none
      | hi :: _ =>
        if hi.Address = a then
          let left : MCTextAtomData := { t with AtomEnd := a - 1, Insts := lows }
          let right : MCTextAtomData :=
            ⟨a, t.AtomEnd, a, t.Name, highs⟩
          some ({ m with Atoms := (m.Atoms.set aid (.text left)) ++ [.text right] },
                m.Atoms.length)
        else none
    else none
  | _ => none

/-- An atom contains `addr` when `Begin ≤ addr ≤ End`. -/
def atomContains (a : MCAtom) (addr : Nat) : Bool :=
  a.beginAddr ≤ addr && addr ≤ a.endAddr

/-- Modelled from the spec (§3): `MCModule::findAtomContaining(addr)` —
the atom whose range contains `addr` (unique while atoms are disjoint;
the first by creation order otherwise).  Returns the atom id. -/
def findAtomContaining (m : MCModule) (addr : Nat) : Option Nat :=
  m.Atoms.findIdx? (fun a => atomContains a addr)

/-- Modelled from the spec (§3): `MCModule::findFirstAtomAfter(addr)` —
among atoms beginning strictly after `addr`, the one with the least begin
address (first by creation order on ties).  Returns the atom id. -/
def findFirstAtomAfter (m : MCModule) (addr : Nat) : Option Nat :=
  (List.range m.Atoms.length).foldl
    (fun best i =>
      match m.Atoms.get? i with
      | none => best
      | some a =>
        if addr < a.beginAddr then
          match best with
          | none => some i
          | some j =>
            match m.Atoms.get? j with
            | none => some i
            | some b => if a.beginAddr < b.beginAddr then some i else best
        else best)
    none

/-- Modelled from the spec (§4.E "allocate a function"): `MCModule::
createFunction(Name)` always allocates a fresh function object. -/
def moduleCreateFunction (m : MCModule) (n : String) : MCModule × Nat :=
  ({ m with Functions := m.Functions ++ [⟨n, []⟩] }, m.Functions.length)

/-- A function's entry address: its first block's atom's begin address
(none for a block-less function, e.g. an external one). -/
def functionEntryAddr (m : MCModule) (f : MCFunction) : Option Nat :=
  match f.Blocks.head? with
  | none => none
  | some b =>
    match m.Atoms.get? b.AtomId with
    | none => none
    | some a => some a.beginAddr

/-- Modelled from the spec (§3 "at most one function per entry address"):
`MCModule::findFunctionAt(addr)` — the first function whose entry address
is `addr`. -/
def findFunctionAt (m : MCModule) (addr : Nat) : Option Nat :=
  (List.range m.Functions.length).find? (fun i =>
    match m.Functions.get? i with
    | none => false
    | some f => functionEntryAddr m f == some addr)

/-! ## The external collaborators (spec §6).

The object file, the decoder, the instruction-analysis oracle and the
symbolizer are inputs of the disassembler; they are modelled as plain
data and functions bundled in `Env`. -/

/-- `object::UnknownAddressOrSize` (`~0ULL`). -/
def UnknownAddressOrSize : Nat := 2 ^ 64 - 1

/-- A section as consumed by the source: text/data flags, address, size,
contents (`none` models a failing `getContents`), name. -/
structure ObjSection where
  IsText : Bool
  IsData : Bool
  Address : Nat
  Size : Nat
  Contents : Option (List Nat)
  Name : String
deriving DecidableEq, Repr

/-- A symbol: name, type (`none` models a failing `getType`; `true` is
`SymbolRef::ST_Function`), address (`none` models a failing
`getAddress`). -/
structure ObjSymbol where
  Name : String
  IsFunctionType : Option Bool
  Address : Option Nat
deriving DecidableEq, Repr

/-- The decoder's verdict: `MCDisassembler::getInstruction` fills the
instruction and size on success; on failure it still reports an advance
size. -/
inductive DecodeResult where
  | ok (inst sz : Nat)
  | fail (sz : Nat)
deriving DecidableEq, Repr

/-- The environment: object file contents plus the decoder
(`Dis.getInstruction`, a function of the memory region and address), the
instruction-analysis oracle (`MIA`) and the optional symbolizer (`MOS`,
`findExternalFunctionAt`; the empty string means "not external"). -/
structure Env where
  sections : List ObjSection
  symbols : List ObjSymbol
  getInstruction : Region → Nat → DecodeResult
  isBranch : Nat → Bool
  isConditionalBranch : Nat → Bool
  isCall : Nat → Bool
  isTerminator : Nat → Bool
  evaluateBranch : Nat → Nat → Nat → Option Nat
  mos : Option (Nat → String)

/-- `MCObjectDisassembler::getEffectiveLoadAddr` (line 83): identity in
the base class (the driver instantiates the base class). -/
def getEffectiveLoadAddr (a : Nat) : Nat := a

/-- `MCObjectDisassembler::getOriginalLoadAddr` (line 87): identity. -/
def getOriginalLoadAddr (a : Nat) : Nat := a

/-- `MCObjectDisassembler::getRegionFor` (lines 74-81): `lower_bound`
over the regions sorted by base (first region with `Addr < base+extent`),
accepted when its base is at most `Addr`.  `FallbackRegion` is never set
by this program, so the fallback is `none`. -/
def getRegionFor (regs : List Region) (addr : Nat) : Option Region :=
  match regs.find? (fun r => addr < r.Base + r.Bytes.length) with
  | some r => if r.Base ≤ addr then some r else none
  | none => none

/-- `MCObjectDisassembler::getEntrypoint` (lines 43-54): the effective
address of the first symbol named `main` or `_main`, else 0.  `eff` is
the (virtual) `getEffectiveLoadAddr` of the dynamic class; an unreadable
address is modelled as 0 (the source leaves the out-variable as-is). -/
def baseGetEntrypoint (eff : Nat → Nat) (symbols : List ObjSymbol) : Nat :=
  match symbols.find? (fun s => s.Name == "main" || s.Name == "_main") with
  | some s => eff (s.Address.getD 0)
  | none => 0

/-- `MachO::LC_MAIN` (0x28 | LC_REQ_DYLD). -/
def LC_MAIN : Nat := 0x80000028

/-- A Mach-O load command, with the `entry_point_command` payload fields
the source reads. -/
structure LoadCommand where
  cmd : Nat
  entryoff : Nat
deriving DecidableEq, Repr

/-- `MCMachOObjectDisassembler::getEntrypoint` (lines 760-787), as
written: scan the load commands for `LC_MAIN` and take its `entryoff`
as `EntryFileOffset` (0 when absent); then — under a comment saying
"If we didn't find anything, default to the common implementation" —
return the base-class entrypoint when `EntryFileOffset` is nonzero, and
`EntryFileOffset + HeaderLoadAddress` otherwise.  The Mach-O override of
`getEffectiveLoadAddr` (line 751) adds `VMAddrSlide`. -/
def machoGetEntrypoint (loadCommands : List LoadCommand)
    (vmAddrSlide headerLoadAddress : Nat) (symbols : List ObjSymbol) : Nat :=
  let entryFileOffset :=
    match loadCommands.find? (fun lc => lc.cmd == LC_MAIN) with
    | some lc => lc.entryoff
    | none => 0
  if entryFileOffset ≠ 0 then
    baseGetEntrypoint (fun a => a + vmAddrSlide) symbols
  else
    entryFileOffset + headerLoadAddress

/-- `MCObjectDisassembler::buildEmptyModule` (lines 91-95). -/
def buildEmptyModule (env : Env) : MCModule :=
  ⟨baseGetEntrypoint getEffectiveLoadAddr env.symbols, [], []⟩

/-! ## buildSectionAtoms (lines 130-188). -/

/-- One step of the text-section sweep: decode at `StartAddr + Index`;
on success extend (or start) the current text atom; on failure extend
(or start) the current data atom with the skipped bytes.  Returns the
updated module, current text/data atom ids, and the next index.  `none`
models the `assert(InstSize && ...)` on a zero-size failure. -/
def sectionSweepStep (env : Env) (m : MCModule) (secName : String)
    (startAddr : Nat) (contents : List Nat) (index : Nat)
    (textId invalidId : Option Nat) :
    Option (MCModule × Option Nat × Option Nat × Nat) :=
  let curAddr := startAddr + index
  match env.getInstruction ⟨startAddr, contents⟩ curAddr with
  | .ok inst sz =>
    let (m, tid) := match textId with
      | some tid => (m, tid)
      | none =>
        let (m, tid) := createTextAtom m curAddr curAddr
        (setAtomName m tid secName, tid)
    some (addInst m tid inst sz, some tid, none, index + sz)
  | .fail sz =>
    if sz = 0 then none
    else
      let (m, did) := match invalidId with
        | some did => (m, did)
        | none => createDataAtom m curAddr (curAddr + sz - 1)
      let m := (List.range sz).foldl
        (fun m i => addData m did (contents.getD (index + i) 0)) m
      some (m, none, some did, index + sz)

/-- The `for (Index = 0; Index < SecSize; Index += InstSize)` loop of
`buildSectionAtoms`, with fuel (the source advances by at least one byte
per iteration whenever it terminates; exhausted fuel yields `none`). -/
def sectionSweepLoop (env : Env) (secName : String) (startAddr secSize : Nat)
    (contents : List Nat) :
    Nat → MCModule → Nat → Option Nat → Option Nat → Option MCModule
  | fuel, m, index, textId, invalidId =>
    if index < secSize then
      match fuel with
      | 0 => none
      | fuel + 1 =>
        match sectionSweepStep env m secName startAddr contents index textId invalidId with
        | none => none
        | some (m', tid', did', index') =>
          sectionSweepLoop env secName startAddr secSize contents fuel m' index' tid' did'
    else some m

/-- The per-section body of `buildSectionAtoms` (lines 131-187). -/
def buildSectionAtomsOne (env : Env) (m : MCModule) (sec : ObjSection) :
    Option MCModule :=
  if !sec.IsData && !sec.IsText then some m
  else if sec.Address == UnknownAddressOrSize || sec.Size == UnknownAddressOrSize then some m
  else
    let startAddr := getEffectiveLoadAddr sec.Address
    let contents := sec.Contents.getD []
    if contents.length ≠ sec.Size ∨ sec.Size = 0 then some m
    else
      let endAddr := startAddr + sec.Size - 1
      if sec.IsText then
        sectionSweepLoop env sec.Name startAddr sec.Size contents sec.Size m 0 none none
      else
        let (m, did) := createDataAtom m startAddr endAddr
        let m := setAtomName m did sec.Name
        some ((List.range sec.Size).foldl (fun m i => addData m did (contents.getD i 0)) m)

/-- `MCObjectDisassembler::buildSectionAtoms` (lines 130-188). -/
def buildSectionAtoms (env : Env) (m : MCModule) : Option MCModule :=
  env.sections.foldl
    (fun acc sec => match acc with
      | none => none
      | some m => buildSectionAtomsOne env m sec)
    (some m)

/-! ## The CFG builder: getBBAt (lines 509-704). -/

/-- The builder-scoped per-address record (`struct BBInfo`, lines
194-207, as used by `getBBAt`: atom, basic block, successor addresses). -/
structure BBInfo where
  AtomId : Option Nat
  BB : Option Nat
  SuccAddrs : List Nat
deriving DecidableEq, Repr

instance : Inhabited BBInfo := ⟨⟨none, none, []⟩⟩

/-- `BBInfos.find(a)` on the `std::map<uint64_t, BBInfo>`. -/
def bbLookup (l : List (Nat × BBInfo)) (a : Nat) : Option BBInfo :=
  (l.find? (fun p => p.1 == a)).map (fun p => p.2)

/-- Writing through `BBInfos[a]` (insert or update). -/
def bbSet (l : List (Nat × BBInfo)) (a : Nat) (b : BBInfo) : List (Nat × BBInfo) :=
  if (l.find? (fun p => p.1 == a)).isSome
  then l.map (fun p => if p.1 == a then (a, b) else p)
  else l ++ [(a, b)]

/-- `SmallSetVector::insert`: append if absent. -/
def wlInsert (wl : List Nat) (a : Nat) : List Nat :=
  if a ∈ wl then wl else wl ++ [a]

/-- `RemoveDupsFromAddressVector` (lines 210-213): sort ascending and
drop adjacent duplicates. -/
def dedupAdj : List Nat → List Nat
  | [] => []
  | [a] => [a]
  | a :: b :: r => if a = b then dedupAdj (b :: r) else a :: dedupAdj (b :: r)

def removeDupsAddrs (v : List Nat) : List Nat :=
  dedupAdj (sortLe (fun a b => !(b < a)) v)

/-- The linear disassembly loop of `getBBAt` (lines 589-629): from `addr`
up to `endAddr`, first try the cache (incrementing `Uniqued`), then the
decoder (incrementing `Translated` and feeding the cache); append each
instruction to the atom under construction (created on first use);
harvest call targets via `evaluateBranch`/`isCall`; stop at a terminator
or, with the failed flag set, at a decode failure.  Returns the module,
disassembler state, atom id (if any instruction was decoded), call
targets, and the `FailedDisassembly` flag; fuel exhaustion (which the
source cannot recover from either: a zero-size step loops forever)
yields `none`. -/
def disasmLoop (env : Env) (region : Region) (endAddr : Nat) :
    Nat → ODState → MCModule → Nat → Option Nat → List Nat →
    Option (MCModule × ODState × Option Nat × List Nat × Bool)
  | fuel, od, m, addr, taId, ct =>
    if addr < endAddr then
      match fuel with
      | 0 => none
      | fuel + 1 =>
        let afterAppend := fun (od : ODState) (m : MCModule) (taId : Option Nat)
            (inst sz : Nat) (ct : List Nat) =>
          let ct := match env.evaluateBranch inst addr sz with
            | some target => if env.isCall inst then ct ++ [target] else ct
            | none => ct
          if env.isTerminator inst then
            some (m, od, taId, ct, false)
          else
            disasmLoop env region endAddr fuel od m (addr + sz) taId ct
        match findCachedInstruction od region addr with
        | some (inst, sz) =>
          let (m, tid) := match taId with
            | some tid => (m, tid)
            | none => createTextAtom m addr addr
          let m := addInst m tid inst sz
          let od := { od with Uniqued := od.Uniqued + 1 }
          afterAppend od m (some tid) inst sz ct
        | none =>
          match env.getInstruction region addr with
          | .ok inst sz =>
            let od := { od with Translated := od.Translated + 1 }
            let (m, tid) := match taId with
              | some tid => (m, tid)
              | none => createTextAtom m addr addr
            let m := addInst m tid inst sz
            let od := addTempInstruction od inst (getByteRange region addr sz)
            afterAppend od m (some tid) inst sz ct
          | .fail _ => some (m, od, taId, ct, true)
    else some (m, od, taId, ct, false)

/-- The end address for a fresh linear disassembly at `addr` (lines
577-583): the region end, stopped early at the next atom's begin so that
the new atom falls through to it (`cast_or_null` asserts if that next
atom is a data atom: `none`). -/
def disasmEndAddr (m : MCModule) (addr : Nat) (region : Region) : Option Nat :=
  match findFirstAtomAfter m addr with
  | some nid =>
    match m.Atoms.get? nid with
    | some (.text nt) => some (min (region.Base + region.Bytes.length) nt.Begin)
    | _ => none
  | none => some (region.Base + region.Bytes.length)

/-- The atom-discovery half of one `getBBAt` worklist iteration (lines
536-631): fetch the `BBInfo` at `addr` (asserting it has no atom yet);
if an atom contains `addr`, adopt it, splitting first when it does not
begin at `addr` and transferring recorded successors from the split
atom's begin address; otherwise disassemble a fresh atom from `addr` up
to the region end or the next atom.  Returns the module, disassembler
state, `BBInfos`, call targets, and the failed-disassembly flag. -/
def atomLookupPhase (env : Env) (od : ODState) (m : MCModule)
    (bbinfos : List (Nat × BBInfo)) (addr : Nat) (ct : List Nat) :
    Option (MCModule × ODState × List (Nat × BBInfo) × List Nat × Bool) :=
  let bbi := (bbLookup bbinfos addr).getD default
  if bbi.AtomId.isSome then none
  else
    match findAtomContaining m addr with
    | some aid =>
      match m.Atoms.get? aid with
      | some (.text t) =>
        if t.Begin ≠ addr then
          match splitTextAtom m aid addr with
          | none => none
          | some (m', newAid) =>
            match bbLookup bbinfos t.Begin with
            | some sb =>
              if sb.AtomId.isSome then
                let bbinfos := bbSet bbinfos addr
                  { bbi with AtomId := some newAid, SuccAddrs := sb.SuccAddrs }
                let bbinfos := bbSet bbinfos t.Begin { sb with SuccAddrs := [addr] }
                some (m', od, bbinfos, ct, false)
              else
                some (m', od, bbSet bbinfos addr { bbi with AtomId := some newAid },
                      ct, false)
            | none =>
              some (m', od, bbSet bbinfos addr { bbi with AtomId := some newAid },
                    ct, false)
        else
          some (m, od, bbSet bbinfos addr { bbi with AtomId := some aid }, ct, false)
      | _ => none
    | none =>
      match getRegionFor od.SectionRegions addr with
      | none => none
      | some region =>
        match disasmEndAddr m addr region with
        | none => none
        | some endAddr =>
          match disasmLoop env region endAddr (endAddr - addr) od m addr none ct with
          | none => none
          | some (m', od', taId', ct', failed) =>
            some (m', od', bbSet bbinfos addr { bbi with AtomId := taId' }, ct', failed)

/-- The successor-recording half of one `getBBAt` worklist iteration
(lines 633-668): assert the atom exists and is non-empty, look up its
region; then, unless disassembly failed, record the fallthrough
successor (conditional branch or non-terminator, inside the region) and
the branch target — the latter as a tail call (into `TailCallTargets`
and `CallTargets`, with no successor edge) when the symbolizer names an
external function at it, and as an ordinary successor (recorded and
enqueued) otherwise. -/
def addSuccessorsPhase (env : Env) (od : ODState) (m : MCModule)
    (bbinfos : List (Nat × BBInfo)) (worklist : List Nat) (addr : Nat)
    (ct tct : List Nat) (failed : Bool) :
    Option (List (Nat × BBInfo) × List Nat × List Nat × List Nat) :=
  let bbi := (bbLookup bbinfos addr).getD default
  match bbi.AtomId with
  | none => none
  | some aid =>
    match m.Atoms.get? aid with
    | some (.text t) =>
      match t.Insts.getLast? with
      | none => none
      | some lastInst =>
        match getRegionFor od.SectionRegions t.Begin with
        | none => none
        | some region2 =>
          let endRegion := region2.Base + region2.Bytes.length
          if failed then some (bbinfos, worklist, ct, tct)
          else
            let ft := (env.isConditionalBranch lastInst.Inst ||
                       !env.isTerminator lastInst.Inst) &&
                      t.AtomEnd + 1 < endRegion
            let bbi := if ft
              then { bbi with SuccAddrs := bbi.SuccAddrs ++ [t.AtomEnd + 1] }
              else bbi
            let worklist := if ft then wlInsert worklist (t.AtomEnd + 1) else worklist
            if env.isBranch lastInst.Inst then
              match env.evaluateBranch lastInst.Inst lastInst.Address lastInst.Size with
              | some target =>
                let extFnName := match env.mos with
                  | some f => f (getOriginalLoadAddr target)
                  | none => ""
                if extFnName ≠ "" then
                  some (bbSet bbinfos addr bbi, worklist,
                        ct ++ [target], tct ++ [target])
                else
                  some (bbSet bbinfos addr
                          { bbi with SuccAddrs := bbi.SuccAddrs ++ [target] },
                        wlInsert worklist target, ct, tct)
              | none => some (bbSet bbinfos addr bbi, worklist, ct, tct)
            else some (bbSet bbinfos addr bbi, worklist, ct, tct)
    | _ => none

/-- The builder-scoped state threaded through the `getBBAt` worklist. -/
structure GBState where
  module : MCModule
  od : ODState
  bbinfos : List (Nat × BBInfo)
  worklist : List Nat
  callTargets : List Nat
  tailCallTargets : List Nat
deriving Repr

/-- One full worklist iteration of `getBBAt` phase 1. -/
def processAddr (env : Env) (st : GBState) (addr : Nat) : Option GBState :=
  match atomLookupPhase env st.od st.module st.bbinfos addr st.callTargets with
  | none => none
  | some (m', od', bbinfos', ct', failed) =>
    match addSuccessorsPhase env od' m' bbinfos' st.worklist addr ct'
        st.tailCallTargets failed with
    | none => none
    | some (bbinfos'', worklist', ct'', tct') =>
      some ⟨m', od', bbinfos'', worklist', ct'', tct'⟩

/-- The growing-worklist loop of `getBBAt` phase 1
(`for (wi = 0; wi < Worklist.size(); ++wi)`), with fuel. -/
def phase1Loop (env : Env) : Nat → GBState → Nat → Option GBState
  | fuel, st, wi =>
    if wi < st.worklist.length then
      match fuel with
      | 0 => none
      | fuel + 1 =>
        match processAddr env st (st.worklist.getD wi 0) with
        | none => none
        | some st' => phase1Loop env fuel st' (wi + 1)
    else some st

/-- `MCFunction::find(StartAddr)`: the first block whose atom begins at
`addr` (modelled from the spec §4.D phase 2: "look up an existing basic
block at that address"). -/
def fnFind (m : MCModule) (fn : MCFunction) (addr : Nat) : Option Nat :=
  fn.Blocks.findIdx? (fun b =>
    match m.Atoms.get? b.AtomId with
    | some a => a.beginAddr == addr
    | none => false)

/-- Phase 2 of `getBBAt` (lines 671-685): for each worklist address, find
or create the basic block for its atom in function `fidx`. -/
def phase2Loop (fidx : Nat) : MCModule → List (Nat × BBInfo) → List Nat →
    Option (MCModule × List (Nat × BBInfo))
  | m, bbinfos, [] => some (m, bbinfos)
  | m, bbinfos, waddr :: rest =>
    let bbi := (bbLookup bbinfos waddr).getD default
    match bbi.AtomId with
    | none => none
    | some aid =>
      match m.Functions.get? fidx with
      | none => none
      | some fn =>
        match fnFind m fn waddr with
        | some bidx =>
          phase2Loop fidx m (bbSet bbinfos waddr { bbi with BB := some bidx }) rest
        | none =>
          let bidx := fn.Blocks.length
          let fn' := { fn with Blocks := fn.Blocks ++ [⟨aid, [], []⟩] }
          phase2Loop fidx { m with Functions := m.Functions.set fidx fn' }
            (bbSet bbinfos waddr { bbi with BB := some bidx }) rest

/-- `MCBasicBlock::addSuccessor` plus `addPredecessor` on the blocks of
function `fidx`. -/
def addEdge (m : MCModule) (fidx bidx sidx : Nat) : MCModule :=
  match m.Functions.get? fidx with
  | none => m
  | some fn =>
    let fn := match fn.Blocks.get? bidx with
      | some b =>
        { fn with Blocks := fn.Blocks.set bidx { b with Succs := b.Succs ++ [sidx] } }
      | none => fn
    let fn := match fn.Blocks.get? sidx with
      | some b =>
        { fn with Blocks := fn.Blocks.set sidx { b with Preds := b.Preds ++ [bidx] } }
      | none => fn
    { m with Functions := m.Functions.set fidx fn }

/-- Phase 3 of `getBBAt` (lines 687-698): deduplicate each worklist
entry's successor addresses and wire successor/predecessor pointers.  A
missing block on either side is a null dereference in the source
(`none`). -/
def phase3Loop (fidx : Nat) (bbinfos : List (Nat × BBInfo)) :
    MCModule → List Nat → Option MCModule
  | m, [] => some m
  | m, waddr :: rest =>
    let bbi := (bbLookup bbinfos waddr).getD default
    match bbi.BB with
    | none => none
    | some bidx =>
      let step := (removeDupsAddrs bbi.SuccAddrs).foldl
        (fun acc a => match acc with
          | none => none
          | some m =>
            match ((bbLookup bbinfos a).getD default).BB with
            | none => none
            | some sidx => some (addEdge m fidx bidx sidx))
        (some m)
      match step with
      | none => none
      | some m' => phase3Loop fidx bbinfos m' rest

/-- `MCObjectDisassembler::getBBAt` (lines 524-704): phase 1 over the
worklist seeded with `bbBeginAddr`, then block materialization and edge
wiring; returns the module, disassembler state, call/tail-call targets
and the entry block's index in function `fidx`. -/
def getBBAt (env : Env) (fuel : Nat) (od : ODState) (m : MCModule)
    (fidx : Nat) (bbBeginAddr : Nat) (ct tct : List Nat) :
    Option (MCModule × ODState × List Nat × List Nat × Nat) :=
  match phase1Loop env fuel ⟨m, od, [], [bbBeginAddr], ct, tct⟩ 0 with
  | none => none
  | some st =>
    match phase2Loop fidx st.module st.bbinfos st.worklist with
    | none => none
    | some (m2, bbinfos2) =>
      match phase3Loop fidx bbinfos2 m2 st.worklist with
      | none => none
      | some m3 =>
        match ((bbLookup bbinfos2 bbBeginAddr).getD default).BB with
        | none => none
        | some bidx => some (m3, st.od, st.callTargets, st.tailCallTargets, bidx)

/-- `MCObjectDisassembler::createFunction` (lines 706-725): an external
name from the symbolizer yields a fresh named function immediately; else
an existing function at the address is returned; else a fresh unnamed
function is populated via `getBBAt`. -/
def createFunction (env : Env) (fuel : Nat) (od : ODState) (m : MCModule)
    (beginAddr : Nat) (ct tct : List Nat) :
    Option (MCModule × ODState × List Nat × List Nat × Nat) :=
  let extFnName := match env.mos with
    | some f => f (getOriginalLoadAddr beginAddr)
    | none => ""
  if extFnName ≠ "" then
    let (m', fidx) := moduleCreateFunction m extFnName
    some (m', od, ct, tct, fidx)
  else
    match findFunctionAt m beginAddr with
    | some fidx => some (m, od, ct, tct, fidx)
    | none =>
      let (m', fidx) := moduleCreateFunction m ""
      match getBBAt env fuel od m' fidx beginAddr ct tct with
      | none => none
      | some (m'', od', ct', tct', _) => some (m'', od', ct', tct', fidx)

/-- The symbol sweep of `buildCFG` (lines 219-235): for every
function-typed symbol with a readable address lying in a known region,
call `createFunction`, accumulating call targets. -/
def buildCFGSweep (env : Env) (fuel : Nat) (od : ODState) (m : MCModule) :
    Option (MCModule × ODState × List Nat × List Nat) :=
  env.symbols.foldl
    (fun acc sym => match acc with
      | none => none
      | some (m, od, ct, tct) =>
        match sym.IsFunctionType with
        | none => some (m, od, ct, tct)
        | some isFn =>
          if !isFn then some (m, od, ct, tct)
          else
            match sym.Address with
            | none => some (m, od, ct, tct)
            | some a =>
              let a := getEffectiveLoadAddr a
              match getRegionFor od.SectionRegions a with
              | none => some (m, od, ct, tct)
              | some _ =>
                match createFunction env fuel od m a ct tct with
                | none => none
                | some (m', od', ct', tct', _) => some (m', od', ct', tct'))
    (some (m, od, [], []))

/-- The fixpoint loop of `buildCFG` (lines 240-254), as written: while
`NewCallTargets` is non-empty, create functions for all `CallTargets`
(accumulating into `NewCallTargets`), clear `CallTargets`, deduplicate,
and copy `NewCallTargets` over `CallTargets`. -/
def buildCFGLoop (env : Env) (gbFuel : Nat) :
    Nat → MCModule → ODState → List Nat → List Nat → List Nat →
    Option MCModule
  | loopFuel, m, od, ct, nct, tct =>
    if nct.isEmpty then some m
    else
      match loopFuel with
      | 0 => none
      | loopFuel + 1 =>
        let body := ct.foldl
          (fun acc callTarget => match acc with
            | none => none
            | some (m, od, nct, tct) =>
              let callTarget := getEffectiveLoadAddr callTarget
              match createFunction env gbFuel od m callTarget nct tct with
              | none => none
              | some (m', od', nct', tct', _) => some (m', od', nct', tct'))
          (some (m, od, nct, tct))
        match body with
        | none => none
        | some (m', od', nct', tct') =>
          let nct'' := removeDupsAddrs nct'
          buildCFGLoop env gbFuel loopFuel m' od' nct'' nct'' tct'

/-- `MCObjectDisassembler::buildCFG` (lines 215-255): the symbol sweep,
deduplication of both accumulators, then the fixpoint loop entered with
an empty `NewCallTargets`. -/
def buildCFG (env : Env) (gbFuel loopFuel : Nat) (od : ODState)
    (m : MCModule) : Option MCModule :=
  match buildCFGSweep env gbFuel od m with
  | none => none
  | some (m', od', ct, tct) =>
    let ct := removeDupsAddrs ct
    let _ := removeDupsAddrs tct
    buildCFGLoop env gbFuel loopFuel m' od' ct [] tct

/-- The section-region population of `buildModule` (lines 100-121):
text sections with known address, size and contents become regions,
sorted by base. -/
def buildSectionRegions (env : Env) : List Region :=
  sortLe (fun a b => !(b.Base < a.Base))
    (env.sections.foldl
      (fun acc sec =>
        if sec.Address == UnknownAddressOrSize || sec.Size == UnknownAddressOrSize
        then acc
        else
          let startAddr := getEffectiveLoadAddr sec.Address
          if !sec.IsText then acc
          else
            match sec.Contents with
            | none => acc
            | some c => acc ++ [⟨startAddr, c⟩])
      [])

/-- `MCObjectDisassembler::buildModule` (lines 97-128): build the empty
module, populate the section regions, then build the CFG or the plain
section atoms. -/
def buildModule (env : Env) (gbFuel loopFuel : Nat) (withCFG : Bool) :
    Option MCModule :=
  let m := buildEmptyModule env
  let od := { initODState with SectionRegions := buildSectionRegions env }
  if withCFG then buildCFG env gbFuel loopFuel od m
  else buildSectionAtoms env m

/-- The cache lookup as the spec's §4.C words describe it: binary-search
Cached for the *greatest* entry whose raw bytes are lexicographically at
most the fetched window; hit iff the window starts with that entry's raw
bytes.  Stated for comparison with `findCachedInstruction` above. -/
def specFindCachedInstruction (st : ODState) (r : Region) (addr : Nat) :
    Option (Nat × Nat) :=
  if r.Base + r.Bytes.length < addr then none
  else
    match (st.CachedInsts.filter (fun e =>
        !bytesLt (getByteRange r addr st.LongestCachedRawBytes) e.RawBytes)).getLast? with
    | none => none
    | some e =>
      if e.RawBytes.isPrefixOf (getByteRange r addr st.LongestCachedRawBytes) then
        some (e.Inst, e.RawBytes.length)
      else none

/-! # Verification

Shared lemmas first, then one theorem per claim (with witnesses and
counterexamples where applicable). -/

theorem bytesLt_irrefl (l : List Nat) : bytesLt l l = false := by
  induction l with
  | nil => rfl
  | cons a as ih => simp [bytesLt, ih]

theorem isPrefixOf_eq_or_bytesLt (p l : List Nat) (h : p.isPrefixOf l = true) :
    p = l ∨ bytesLt p l = true := by
  induction p generalizing l with
  | nil =>
    cases l with
    | nil => exact Or.inl rfl
    | cons b bs => exact Or.inr rfl
  | cons a as ih =>
    cases l with
    | nil => simp [List.isPrefixOf] at h
    | cons b bs =>
      simp only [List.isPrefixOf, Bool.and_eq_true, beq_iff_eq] at h
      obtain ⟨rfl, h2⟩ := h
      rcases ih bs h2 with h3 | h3
      · exact Or.inl (by rw [h3])
      · exact Or.inr (by simp [bytesLt, h3])

theorem bytesIsPrefixOf_refl (l : List Nat) : l.isPrefixOf l = true := by
  induction l with
  | nil => rfl
  | cons a as ih => simp [List.isPrefixOf, ih]

/-- An entry found by the lower-bound lookup with a prefix match must
equal the search window exactly (a proper prefix would be strictly
smaller, contradicting the lower bound). -/
theorem lowerBound_hit_mem (l : List CachedInstEntry) (raw : List Nat)
    (e : CachedInstEntry) (hget : l.get? (lowerBoundIdx l raw) = some e)
    (hpre : e.RawBytes.isPrefixOf raw = true) :
    e ∈ l ∧ e.RawBytes = raw := by
  induction l with
  | nil => simp [lowerBoundIdx] at hget
  | cons a as ih =>
    cases hlt : bytesLt a.RawBytes raw with
    | true =>
      rw [lowerBoundIdx, if_pos hlt, List.get?_cons_succ] at hget
      obtain ⟨hm, hr⟩ := ih hget
      exact ⟨List.mem_cons_of_mem _ hm, hr⟩
    | false =>
      rw [lowerBoundIdx, if_neg (by simp [hlt]), List.get?_cons_zero,
        Option.some_inj] at hget
      subst hget
      refine ⟨List.mem_cons_self _ _, ?_⟩
      rcases isPrefixOf_eq_or_bytesLt _ _ hpre with h | h
      · exact h
      · rw [h] at hlt; cases hlt

/-- If the (strictly) sorted cache holds an entry whose raw bytes equal
the window, the lower-bound lookup finds exactly that entry. -/
theorem lowerBound_hit_of_mem (l : List CachedInstEntry) (raw : List Nat)
    (hsort : l.Pairwise (fun a b => bytesLt a.RawBytes b.RawBytes = true))
    (e : CachedInstEntry) (he : e ∈ l) (hr : e.RawBytes = raw) :
    l.get? (lowerBoundIdx l raw) = some e := by
  induction l with
  | nil => cases he
  | cons a as ih =>
    rw [List.pairwise_cons] at hsort
    obtain ⟨ha, hsort'⟩ := hsort
    cases hlt : bytesLt a.RawBytes raw with
    | false =>
      rcases List.mem_cons.mp he with rfl | hmem
      · rw [lowerBoundIdx, if_neg (by simp [hlt]), List.get?_cons_zero]
      · have := ha e hmem
        rw [hr, hlt] at this
        cases this
    | true =>
      rcases List.mem_cons.mp he with rfl | hmem
      · rw [hr, bytesLt_irrefl] at hlt
        cases hlt
      · rw [lowerBoundIdx, if_pos hlt, List.get?_cons_succ]
        exact ih hsort' hmem

/-- C2, amended: with the cache sorted strictly by raw bytes (as
`uniqueTempInstructions` leaves it), `findCachedInstruction` hits iff
some cached entry's raw bytes equal the *entire* fetched window (the
source's `lower_bound` finds the least entry that is lexicographically
at least the window, so a prefix match forces equality); on a hit,
`Inst` is that entry's instruction and `InstSize` that entry's raw-byte
length. -/
theorem findCachedInstruction_hit_iff (st : ODState) (r : Region)
    (addr inst sz : Nat)
    (hsort : st.CachedInsts.Pairwise
      (fun a b => bytesLt a.RawBytes b.RawBytes = true)) :
    findCachedInstruction st r addr = some (inst, sz) ↔
      ¬ r.Base + r.Bytes.length < addr ∧
      ∃ e ∈ st.CachedInsts,
        e.RawBytes = getByteRange r addr st.LongestCachedRawBytes ∧
        e.Inst = inst ∧ e.RawBytes.length = sz := by
  unfold findCachedInstruction
  by_cases hb : r.Base + r.Bytes.length < addr
  · simp [hb]
  · simp only [if_neg hb]
    constructor
    · intro h
      refine ⟨hb, ?_⟩
      cases hget : st.CachedInsts.get?
          (lowerBoundIdx st.CachedInsts (getByteRange r addr st.LongestCachedRawBytes)) with
      | none => rw [hget] at h; cases h
      | some e =>
        rw [hget] at h
        dsimp only at h
        cases hpre : e.RawBytes.isPrefixOf (getByteRange r addr st.LongestCachedRawBytes) with
        | false => rw [hpre] at h; simp at h
        | true =>
          rw [hpre] at h
          simp at h
          obtain ⟨hm, hr⟩ := lowerBound_hit_mem _ _ _ hget hpre
          exact ⟨e, hm, hr, h.1, h.2⟩
    · rintro ⟨-, e, hmem, hraw, hinst, hlen⟩
      rw [lowerBound_hit_of_mem st.CachedInsts _ hsort e hmem hraw]
      dsimp only
      have hp : e.RawBytes.isPrefixOf (getByteRange r addr st.LongestCachedRawBytes) = true := by
        rw [← hraw]; exact bytesIsPrefixOf_refl _
      rw [hp]
      simp [hinst, hlen]

/-- C2, counterexample to the claim as stated: the cache holds the single
entry `[170]` (trivially sorted), the window fetched at address 256 is
`[170, 187]`.  The greatest entry lexicographically at most the window is
`[170]`, a prefix of the window, so the spec's described lookup hits —
but the source's `lower_bound` skips past `[170]` (it is *less* than the
window) and misses. -/
theorem findCachedInstruction_claim_cex :
    specFindCachedInstruction ⟨[], [⟨[170], 5⟩], 2, [], [], 0, 0⟩ ⟨256, [170, 187]⟩ 256 =
      some (5, 1) ∧
    findCachedInstruction ⟨[], [⟨[170], 5⟩], 2, [], [], 0, 0⟩ ⟨256, [170, 187]⟩ 256 =
      none := by
  constructor <;> rfl

/-- Witness for the amended C2 theorem at a concrete hit. -/
theorem findCachedInstruction_hit_iff_witness :
    findCachedInstruction ⟨[], [⟨[170, 187], 5⟩], 2, [], [], 0, 0⟩ ⟨256, [170, 187]⟩ 256 =
      some (5, 2) :=
  (findCachedInstruction_hit_iff ⟨[], [⟨[170, 187], 5⟩], 2, [], [], 0, 0⟩
      ⟨256, [170, 187]⟩ 256 5 2 (by simp)).mpr
    ⟨by decide, ⟨[170, 187], 5⟩, by decide, by decide, rfl, rfl⟩

/-- C1: the fixpoint loop of `buildCFG` never iterates — `NewCallTargets`
is empty when the loop condition is first tested — so `buildCFG` returns
exactly the module produced by the symbol sweep, independently of the
loop fuel: `createFunction` is never invoked for the addresses
accumulated in `CallTargets`, and every function in the returned module
originates from the sweep over symbol-table function symbols. -/
theorem buildCFG_loop_never_iterates (env : Env) (gbFuel loopFuel : Nat)
    (od : ODState) (m : MCModule) :
    buildCFG env gbFuel loopFuel od m =
      (buildCFGSweep env gbFuel od m).map (fun r => r.1) := by
  unfold buildCFG
  cases buildCFGSweep env gbFuel od m with
  | none => rfl
  | some r =>
    obtain ⟨m', od', ct, tct⟩ := r
    simp only [Option.map_some']
    rw [buildCFGLoop.eq_def]
    rfl

/-- C5: `MCMachOObjectDisassembler::getEntrypoint` evaluated at inputs
exhibiting the inverted condition.  With an `LC_MAIN` command carrying
`entryoff = 0x4000`, header load address `0x100000000` and a `main`
symbol at `0x2000`, the function returns the symbol fallback `0x2000`
instead of `entryoff + HeaderLoadAddress = 0x100004000`; with no
`LC_MAIN` it returns the bare header load address instead of the `main`
symbol's address. -/
theorem machoGetEntrypoint_inverted_condition :
    machoGetEntrypoint [⟨LC_MAIN, 0x4000⟩] 0 0x100000000
      [⟨"main", some true, some 0x2000⟩] = 0x2000 ∧
    machoGetEntrypoint [] 0 0x100000000
      [⟨"main", some true, some 0x2000⟩] = 0x100000000 := by
  constructor <;> rfl

/-- C10: `createFunction` consults the symbolizer *before* looking for an
existing function, and the external path always allocates: with a
symbolizer naming `beginAddr` externally, each call appends one fresh
function object bearing that name — two successive calls at the same
address yield two distinct function objects (distinct indices), whatever
functions the module already holds. -/
theorem createFunction_external_always_allocates (env : Env) (fuel : Nat)
    (od : ODState) (m : MCModule) (addr : Nat) (ct tct : List Nat)
    (f : Nat → String) (hmos : env.mos = some f)
    (hname : f (getOriginalLoadAddr addr) ≠ "") :
    createFunction env fuel od m addr ct tct =
      some ({ m with Functions :=
                m.Functions ++ [⟨f (getOriginalLoadAddr addr), []⟩] },
            od, ct, tct, m.Functions.length) ∧
    createFunction env fuel od
        { m with Functions := m.Functions ++ [⟨f (getOriginalLoadAddr addr), []⟩] }
        addr ct tct =
      some ({ m with Functions :=
                m.Functions ++ [⟨f (getOriginalLoadAddr addr), []⟩,
                                ⟨f (getOriginalLoadAddr addr), []⟩] },
            od, ct, tct, m.Functions.length + 1) ∧
    m.Functions.length ≠ m.Functions.length + 1 := by
  refine ⟨?_, ?_, by omega⟩
  · unfold createFunction
    rw [hmos]
    simp [hname, moduleCreateFunction]
  · unfold createFunction
    rw [hmos]
    simp [hname, moduleCreateFunction]

/-- Shape of a successful `splitTextAtom`: the original atom is truncated
at the split point (keeping the instructions before it) and a fresh atom
holding the rest is appended. -/
theorem splitTextAtom_shape (m : MCModule) (aid a : Nat) (m' : MCModule)
    (newAid : Nat) (t : MCTextAtomData)
    (h2 : m.Atoms.get? aid = some (.text t))
    (h : splitTextAtom m aid a = some (m', newAid)) :
    newAid = m.Atoms.length ∧
    m'.Atoms = (m.Atoms.set aid (.text ⟨t.Begin, a - 1, t.NextInstAddress,
        t.Name, t.Insts.takeWhile (fun i => i.Address < a)⟩)) ++
      [.text ⟨a, t.AtomEnd, a, t.Name,
        t.Insts.dropWhile (fun i => i.Address < a)⟩] ∧
    t.Begin < a ∧ a ≤ t.AtomEnd := by
  unfold splitTextAtom at h
  rw [h2] at h
  dsimp only at h
  by_cases hrange : t.Begin < a ∧ a ≤ t.AtomEnd
  · rw [if_pos hrange] at h
    cases hd : t.Insts.dropWhile (fun i => i.Address < a) with
    | nil => rw [hd] at h; cases h
    | cons hi rest =>
      rw [hd] at h
      dsimp only at h
      by_cases hia : hi.Address = a
      · rw [if_pos hia] at h
        simp only [Option.some_inj, Prod.mk.injEq] at h
        obtain ⟨hm', hnew⟩ := h
        refine ⟨hnew.symm, ?_, hrange⟩
        rw [← hm']
      · rw [if_neg hia] at h; cases h
  · rw [if_neg hrange] at h; cases h

/-- C3: when the worklist reaches an address strictly inside an existing
text atom, the atom is split there, and a previously recorded `BBInfo`
at the atom's begin address (with a non-null atom) has its successor
list transferred to the new `BBInfo` at the split address, itself being
left with the single successor `{addr}`. -/
theorem getBBAt_split_transfers_successors (env : Env) (od : ODState)
    (m : MCModule) (bbinfos : List (Nat × BBInfo)) (addr : Nat)
    (ct : List Nat) (aid : Nat) (t : MCTextAtomData) (m' : MCModule)
    (newAid : Nat) (sb : BBInfo) (said : Nat)
    (h0 : bbLookup bbinfos addr = none)
    (h1 : findAtomContaining m addr = some aid)
    (h2 : m.Atoms.get? aid = some (.text t))
    (h3 : t.Begin ≠ addr)
    (h4 : splitTextAtom m aid addr = some (m', newAid))
    (h5 : bbLookup bbinfos t.Begin = some sb)
    (h6 : sb.AtomId = some said) :
    atomLookupPhase env od m bbinfos addr ct =
      some (m', od,
        bbSet (bbSet bbinfos addr ⟨some newAid, none, sb.SuccAddrs⟩)
          t.Begin { sb with SuccAddrs := [addr] },
        ct, false) ∧
    (∃ tl, m'.Atoms.get? aid = some (.text tl) ∧ tl.Begin = t.Begin ∧
      tl.AtomEnd = addr - 1 ∧
      tl.Insts = t.Insts.takeWhile (fun i => i.Address < addr)) ∧
    (∃ tr, m'.Atoms.get? newAid = some (.text tr) ∧ tr.Begin = addr ∧
      tr.AtomEnd = t.AtomEnd ∧
      tr.Insts = t.Insts.dropWhile (fun i => i.Address < addr)) := by
  obtain ⟨hnew, hatoms, hlo, hhi⟩ := splitTextAtom_shape m aid addr m' newAid t h2 h4
  have haid : aid < m.Atoms.length := by
    by_contra hge
    rw [List.get?_eq_none.mpr (Nat.le_of_not_lt hge)] at h2
    cases h2
  refine ⟨?_, ?_, ?_⟩
  · unfold atomLookupPhase
    rw [h0]
    simp only [Option.getD_none]
    rw [show (default : BBInfo).AtomId.isSome = false from rfl]
    simp only [Bool.false_eq_true, if_false]
    rw [h1]
    dsimp only
    rw [h2]
    dsimp only
    rw [if_pos h3, h4]
    dsimp only
    rw [h5]
    dsimp only
    rw [h6]
    rfl
  · refine ⟨⟨t.Begin, addr - 1, t.NextInstAddress, t.Name,
      t.Insts.takeWhile (fun i => i.Address < addr)⟩, ?_, rfl, rfl, rfl⟩
    rw [hatoms]
    rw [List.get?_append (by simpa using haid)]
    simp [List.get?_eq_getElem?, List.getElem?_set, haid]
  · refine ⟨⟨addr, t.AtomEnd, addr, t.Name,
      t.Insts.dropWhile (fun i => i.Address < addr)⟩, ?_, rfl, rfl, rfl⟩
    rw [hatoms, hnew]
    rw [show m.Atoms.length = (m.Atoms.set aid (.text ⟨t.Begin, addr - 1,
      t.NextInstAddress, t.Name,
      t.Insts.takeWhile (fun i => i.Address < addr)⟩)).length from
      (List.length_set _ _ _).symm]
    exact List.get?_concat_length _ _

/-- An inert environment (no sections, failing decoder, no symbolizer). -/
def nullEnv : Env :=
  ⟨[], [], fun _ _ => .fail 1, fun _ => false, fun _ => false, fun _ => false,
   fun _ => false, fun _ _ _ => none, none⟩

/-- A module with one two-instruction text atom, and a recorded `BBInfo`
at its begin address carrying the successor `0x3000`. -/
def c3Module : MCModule :=
  ⟨0, [.text ⟨0x1000, 0x1001, 0x1002, "f", [⟨1, 0x1000, 1⟩, ⟨2, 0x1001, 1⟩]⟩], []⟩

def c3BBInfos : List (Nat × BBInfo) := [(0x1000, ⟨some 0, none, [0x3000]⟩)]

/-- Witness for C3: splitting the atom at `0x1001` moves the recorded
successor `0x3000` to the new `BBInfo` at `0x1001` and leaves `{0x1001}`
on the old one. -/
theorem getBBAt_split_transfers_successors_witness :
    atomLookupPhase nullEnv initODState c3Module c3BBInfos 0x1001 [] =
      some (⟨0, [.text ⟨0x1000, 0x1000, 0x1002, "f", [⟨1, 0x1000, 1⟩]⟩,
                 .text ⟨0x1001, 0x1001, 0x1001, "f", [⟨2, 0x1001, 1⟩]⟩], []⟩,
            initODState,
            [(0x1000, ⟨some 0, none, [0x1001]⟩),
             (0x1001, ⟨some 1, none, [0x3000]⟩)],
            [], false) :=
  (getBBAt_split_transfers_successors nullEnv initODState c3Module c3BBInfos
    0x1001 [] 0 ⟨0x1000, 0x1001, 0x1002, "f", [⟨1, 0x1000, 1⟩, ⟨2, 0x1001, 1⟩]⟩
    ⟨0, [.text ⟨0x1000, 0x1000, 0x1002, "f", [⟨1, 0x1000, 1⟩]⟩,
         .text ⟨0x1001, 0x1001, 0x1001, "f", [⟨2, 0x1001, 1⟩]⟩], []⟩
    1 ⟨some 0, none, [0x3000]⟩ 0
    rfl rfl rfl (by decide) (by decide) rfl rfl).1

/-- The maximum raw-byte length across a cache. -/
def maxRawLen (l : List CachedInstEntry) : Nat :=
  l.foldl (fun acc e => max acc e.RawBytes.length) 0

theorem insertLe_perm {α : Type} (le : α → α → Bool) (x : α) :
    ∀ l : List α, (insertLe le x l).Perm (x :: l)
  | [] => List.Perm.refl _
  | y :: ys => by
    rw [insertLe]
    by_cases h : le x y = true
    · rw [if_pos h]
    · rw [if_neg h]
      exact ((insertLe_perm le x ys).cons y).trans (List.Perm.swap x y ys)

theorem sortLe_perm {α : Type} (le : α → α → Bool) :
    ∀ l : List α, (sortLe le l).Perm l
  | [] => List.Perm.refl _
  | x :: xs =>
    (insertLe_perm le x (sortLe le xs)).trans ((sortLe_perm le xs).cons x)

theorem foldl_max_perm {α : Type} (g : α → Nat) {l₁ l₂ : List α}
    (p : l₁.Perm l₂) : ∀ a : Nat,
    l₁.foldl (fun acc x => max acc (g x)) a =
      l₂.foldl (fun acc x => max acc (g x)) a := by
  induction p with
  | nil => intro a; rfl
  | cons x _ ih => intro a; simp only [List.foldl_cons]; exact ih _
  | swap x y l =>
    intro a
    simp only [List.foldl_cons]
    rw [Nat.max_assoc, Nat.max_comm (g y) (g x), ← Nat.max_assoc]
  | trans _ _ ih1 ih2 => intro a; rw [ih1, ih2]

theorem foldl_max_flip {α : Type} (g : α → Nat) :
    ∀ (l : List α) (a : Nat),
    l.foldl (fun acc x => max (g x) acc) a =
      l.foldl (fun acc x => max acc (g x)) a
  | [], _ => rfl
  | x :: xs, a => by
    simp only [List.foldl_cons]
    rw [foldl_max_flip g xs (max (g x) a), Nat.max_comm (g x) a]

theorem foldl_max_init {α : Type} (g : α → Nat) :
    ∀ (l : List α) (a : Nat),
    l.foldl (fun acc x => max acc (g x)) a =
      max a (l.foldl (fun acc x => max acc (g x)) 0)
  | [], a => by simp
  | x :: xs, a => by
    simp only [List.foldl_cons]
    rw [foldl_max_init g xs (max a (g x)), foldl_max_init g xs (max 0 (g x)),
      Nat.zero_max, Nat.max_assoc]

theorem foldl_max_le {α : Type} (g : α → Nat) :
    ∀ (l : List α) (a : Nat), (∀ x ∈ l, g x ≤ a) →
    l.foldl (fun acc x => max (g x) acc) a = a
  | [], _, _ => rfl
  | x :: xs, a, h => by
    simp only [List.foldl_cons]
    rw [Nat.max_eq_right (h x (List.mem_cons_self x xs))]
    exact foldl_max_le g xs a (fun y hy => h y (List.mem_cons_of_mem x hy))

theorem foldl_max_all_one {α : Type} (g : α → Nat) :
    ∀ (l : List α) (a : Nat), l ≠ [] → (∀ x ∈ l, g x = 1) →
    l.foldl (fun acc x => max acc (g x)) a = max a 1
  | [], _, h, _ => absurd rfl h
  | x :: xs, a, _, hall => by
    simp only [List.foldl_cons]
    rw [hall x (List.mem_cons_self x xs)]
    cases xs with
    | nil => rfl
    | cons y ys =>
      rw [foldl_max_all_one g (y :: ys) (max a 1) (by simp)
        (fun z hz => hall z (List.mem_cons_of_mem x hz))]
      rw [Nat.max_assoc, Nat.max_self]

/-- Sorting the cache does not change its maximum raw-byte length. -/
theorem maxRawLen_sortLe (l : List CachedInstEntry) :
    maxRawLen (sortLe cachedLe l) = maxRawLen l :=
  foldl_max_perm (fun e : CachedInstEntry => e.RawBytes.length)
    (sortLe_perm cachedLe l) 0

/-- C9, amended: after `uniqueTempInstructions`, `LongestCachedRawBytes`
equals the maximum of its *previous* value and the maximum raw-byte
length over the retained entries — the member is never reset before the
rebuild loop, so it can exceed the maximum across `CachedInsts` once a
longer entry has been evicted. -/
theorem uniqueTempInstructions_longest_max (st : ODState) :
    (uniqueTempInstructions st).LongestCachedRawBytes =
      max st.LongestCachedRawBytes
        (maxRawLen (uniqueTempInstructions st).CachedInsts) := by
  simp only [uniqueTempInstructions, maxRawLen]
  rw [foldl_max_perm (fun e : CachedInstEntry => e.RawBytes.length)
    (sortLe_perm cachedLe _) 0]
  rw [List.foldl_map]
  rw [foldl_max_flip, foldl_max_init]

/-- `n` groups of two identical one-byte keys `[i], [i+1], …` — the shape
of a temp buffer in which every key occurs twice. -/
def mkPairsFrom : Nat → Nat → List TempInstKey
  | _, 0 => []
  | i, n + 1 => ⟨[i], 0⟩ :: ⟨[i], 0⟩ :: mkPairsFrom (i + 1) n

/-- The duplicate-run summary of `mkPairsFrom`: run index and count 2. -/
def pairRuns : Nat → Nat → List (Nat × Nat)
  | _, 0 => []
  | idx, n + 1 => (idx, 2) :: pairRuns (idx + 2) n

theorem mkPairsFrom_chainR (n : Nat) : ∀ (j i : Nat), j ≤ i →
    List.Chain (fun a b : TempInstKey => tempKeyLe a b = true)
      ⟨[j], 0⟩ (mkPairsFrom i n) := by
  induction n with
  | zero => intro j i _; exact List.Chain.nil
  | succ n ih =>
    intro j i h
    refine List.Chain.cons ?_ (List.Chain.cons ?_ (ih i (i + 1) (Nat.le_succ i)))
    · simp [tempKeyLe, bytesLt, Nat.not_lt.mpr h]
    · simp [tempKeyLe, bytesLt]

theorem mkPairsFrom_chain (i n : Nat) :
    List.Chain' (fun a b : TempInstKey => tempKeyLe a b = true)
      (mkPairsFrom i n) := by
  cases n with
  | zero => trivial
  | succ n =>
    exact List.Chain.cons (by simp [tempKeyLe, bytesLt])
      (mkPairsFrom_chainR n i (i + 1) (Nat.le_succ i))

theorem mkPairsFrom_mem (n : Nat) : ∀ (i : Nat) (y : TempInstKey),
    y ∈ mkPairsFrom i n → ∃ j, i ≤ j ∧ y = ⟨[j], 0⟩ := by
  induction n with
  | zero => intro i y h; cases h
  | succ n ih =>
    intro i y h
    rw [mkPairsFrom] at h
    rcases List.mem_cons.mp h with rfl | h
    · exact ⟨i, Nat.le_refl i, rfl⟩
    · rcases List.mem_cons.mp h with rfl | h
      · exact ⟨i, Nat.le_refl i, rfl⟩
      · obtain ⟨j, hj, rfl⟩ := ih (i + 1) y h
        exact ⟨j, Nat.le_of_succ_le hj, rfl⟩

theorem mkPairsFrom_getD (n : Nat) : ∀ (i k : Nat), k < n →
    (mkPairsFrom i n).getD (2 * k) ⟨[], 0⟩ = ⟨[i + k], 0⟩ := by
  induction n with
  | zero => intro i k h; cases h
  | succ n ih =>
    intro i k hk
    cases k with
    | zero => rfl
    | succ k =>
      rw [mkPairsFrom, show 2 * (k + 1) = 2 * k + 1 + 1 from by omega,
        List.getD_cons_succ, List.getD_cons_succ,
        ih (i + 1) k (Nat.lt_of_succ_lt_succ hk),
        show i + 1 + k = i + (k + 1) from by omega]

theorem pairRuns_all_two (n : Nat) : ∀ (idx : Nat) (p : Nat × Nat),
    p ∈ pairRuns idx n → p.2 = 2 := by
  induction n with
  | zero => intro idx p h; cases h
  | succ n ih =>
    intro idx p h
    rcases List.mem_cons.mp h with rfl | h
    · rfl
    · exact ih (idx + 2) p h

theorem pairRuns_mem (n : Nat) : ∀ (idx : Nat) (p : Nat × Nat),
    p ∈ pairRuns idx n → ∃ k, k < n ∧ p = (idx + 2 * k, 2) := by
  induction n with
  | zero => intro idx p h; cases h
  | succ n ih =>
    intro idx p h
    rcases List.mem_cons.mp h with rfl | h
    · exact ⟨0, Nat.succ_pos n, by simp⟩
    · obtain ⟨k, hk, rfl⟩ := ih (idx + 2) p h
      exact ⟨k + 1, Nat.succ_lt_succ hk, by simp [Prod.ext_iff]; omega⟩

theorem pairRuns_length (n : Nat) : ∀ idx : Nat, (pairRuns idx n).length = n := by
  induction n with
  | zero => intro idx; rfl
  | succ n ih => intro idx; rw [pairRuns, List.length_cons, ih (idx + 2)]

theorem pairRuns_chainR (n : Nat) : ∀ (p : Nat × Nat), p.2 = 2 → ∀ idx : Nat,
    List.Chain (fun a b : Nat × Nat => keyCountLe a b = true) p (pairRuns idx n) := by
  induction n with
  | zero => intro p _ idx; exact List.Chain.nil
  | succ n ih =>
    intro p hp idx
    exact List.Chain.cons (by simp [keyCountLe, hp]) (ih (idx, 2) rfl (idx + 2))

theorem pairRuns_chain (idx n : Nat) :
    List.Chain' (fun a b : Nat × Nat => keyCountLe a b = true) (pairRuns idx n) := by
  cases n with
  | zero => trivial
  | succ n => exact pairRuns_chainR n (idx, 2) rfl (idx + 2)

theorem insertLe_of_chain {α : Type} (le : α → α → Bool) (a : α) (as : List α)
    (h : List.Chain' (fun p q => le p q = true) (a :: as)) :
    insertLe le a as = a :: as := by
  cases as with
  | nil => rfl
  | cons b bs =>
    have hab : le a b = true := (List.chain'_cons.mp h).1
    simp [insertLe, hab]

theorem sortLe_sorted_id {α : Type} (le : α → α → Bool) :
    ∀ l : List α, List.Chain' (fun p q => le p q = true) l → sortLe le l = l
  | [], _ => rfl
  | a :: as, h => by
    rw [sortLe, sortLe_sorted_id le as h.tail]
    exact insertLe_of_chain le a as h

theorem insertLe_last {α : Type} (le : α → α → Bool) (x : α) :
    ∀ l : List α, (∀ y ∈ l, le x y = false) → insertLe le x l = l ++ [x]
  | [], _ => rfl
  | a :: as, h => by
    rw [insertLe, if_neg (by simp [h a (List.mem_cons_self a as)]),
      insertLe_last le x as (fun y hy => h y (List.mem_cons_of_mem a hy))]
    rfl

theorem sortLe_append_min {α : Type} (le : α → α → Bool) (x : α) :
    ∀ l : List α, List.Chain' (fun p q => le p q = true) l →
    (∀ y ∈ l, le x y = true) → (∀ y ∈ l, le y x = false) →
    sortLe le (l ++ [x]) = x :: l
  | [], _, _, _ => rfl
  | a :: as, hchain, hxy, hyx => by
    rw [List.cons_append, sortLe,
      sortLe_append_min le x as hchain.tail
        (fun y hy => hxy y (List.mem_cons_of_mem a hy))
        (fun y hy => hyx y (List.mem_cons_of_mem a hy))]
    rw [insertLe, if_neg (by simp [hyx a (List.mem_cons_self a as)])]
    rw [insertLe_of_chain le a as hchain]

/-- The duplicate-count sweep over `n` duplicated groups preceded by an
already-counted run. -/
theorem countRunsAux_mkPairs (n : Nat) : ∀ (i idx : Nat) (prev : List Nat)
    (pidx c : Nat), prev ≠ [i] →
    countRunsAux (mkPairsFrom i n) idx (some (prev, pidx, c)) =
      (pidx, c) :: pairRuns idx n := by
  induction n with
  | zero => intro i idx prev pidx c _; rfl
  | succ n ih =>
    intro i idx prev pidx c hprev
    rw [mkPairsFrom, countRunsAux, if_neg hprev, countRunsAux,
      if_pos rfl, ih (i + 1) (idx + 2) [i] idx 2 (by simp)]
    rfl

/-- A disassembler state about to unique: the cache holds one two-byte
entry (`LongestCachedRawBytes = 2`, as a previous uniquing left it), and
the temp buffers hold 2000 distinct one-byte keys, each seen twice. -/
def c9State : ODState :=
  ⟨[], [⟨[0, 0], 9⟩], 2, mkPairsFrom 1 2000, [7], 0, 0⟩

/-- C9, counterexample to the claim as stated: uniquing `c9State` keeps
the 2000 twice-seen one-byte runs (count 2 beats the seeded two-byte
entry's count 1 under the descending sort, whatever the tie order) and
evicts the two-byte entry — yet `LongestCachedRawBytes` stays 2 while
the maximum raw-byte length over the retained entries is 1. -/
theorem uniqueTempInstructions_stale_longest_cex :
    (uniqueTempInstructions c9State).LongestCachedRawBytes = 2 ∧
    maxRawLen (uniqueTempInstructions c9State).CachedInsts = 1 ∧
    (2 : Nat) ≠ 1 := by
  have hseed : c9State.CachedInsts.foldl
      (fun (p : List TempInstKey × List Nat) ce =>
        (p.1 ++ [⟨ce.RawBytes, p.2.length⟩], p.2 ++ [ce.Inst]))
      (c9State.TempInstKeys, c9State.TempInstValues) =
      (mkPairsFrom 1 2000 ++ [⟨[0, 0], 1⟩], [7, 9]) := rfl
  have hkeys : sortLe tempKeyLe (mkPairsFrom 1 2000 ++ [⟨[0, 0], 1⟩]) =
      ⟨[0, 0], 1⟩ :: mkPairsFrom 1 2000 := by
    refine sortLe_append_min tempKeyLe ⟨[0, 0], 1⟩ (mkPairsFrom 1 2000)
      (mkPairsFrom_chain 1 2000) ?_ ?_
    · intro y hy
      obtain ⟨j, hj, rfl⟩ := mkPairsFrom_mem 2000 1 y hy
      simp [tempKeyLe, bytesLt, Nat.not_lt.mpr (Nat.le_of_lt hj),
        Nat.lt_of_lt_of_le Nat.zero_lt_one hj]
    · intro y hy
      obtain ⟨j, hj, rfl⟩ := mkPairsFrom_mem 2000 1 y hy
      simp [tempKeyLe, bytesLt, Nat.lt_of_lt_of_le Nat.zero_lt_one hj]
  have hruns : countRuns (⟨[0, 0], 1⟩ :: mkPairsFrom 1 2000) =
      (0, 1) :: pairRuns 1 2000 := by
    rw [countRuns, countRunsAux]
    exact countRunsAux_mkPairs 2000 1 1 [0, 0] 0 1 (by simp)
  have hdup : sortLe keyCountLe ((0, 1) :: pairRuns 1 2000) =
      pairRuns 1 2000 ++ [(0, 1)] := by
    rw [sortLe, sortLe_sorted_id keyCountLe _ (pairRuns_chain 1 2000)]
    refine insertLe_last keyCountLe (0, 1) _ ?_
    intro y hy
    have h2 := pairRuns_all_two 2000 1 y hy
    simp [keyCountLe, h2]
  have htake : (pairRuns 1 2000 ++ [(0, 1)]).take 2000 = pairRuns 1 2000 :=
    List.take_left' (pairRuns_length 2000 1)
  have hlen1 : ∀ kc ∈ pairRuns 1 2000,
      ((⟨[0, 0], 1⟩ :: mkPairsFrom 1 2000).getD kc.1 ⟨[], 0⟩).RawBytes.length
        = 1 := by
    intro kc hkc
    obtain ⟨k, hk, rfl⟩ := pairRuns_mem 2000 1 kc hkc
    show ((⟨[0, 0], 1⟩ :: mkPairsFrom 1 2000).getD (1 + 2 * k) ⟨[], 0⟩).RawBytes.length = 1
    rw [show 1 + 2 * k = 2 * k + 1 from by omega, List.getD_cons_succ,
      mkPairsFrom_getD 2000 1 k hk]
    rfl
  refine ⟨?_, ?_, by decide⟩
  · simp only [uniqueTempInstructions]
    rw [hseed]
    dsimp only
    rw [hkeys, hruns, hdup, htake]
    rw [show c9State.LongestCachedRawBytes = 2 from rfl]
    apply foldl_max_le
    intro kc hkc
    rw [hlen1 kc hkc]
    omega
  · simp only [uniqueTempInstructions]
    rw [hseed]
    dsimp only
    rw [hkeys, hruns, hdup, htake]
    rw [maxRawLen_sortLe, maxRawLen, List.foldl_map]
    rw [foldl_max_all_one _ (pairRuns 1 2000) 0 ?_ ?_]
    · decide
    · intro h
      have hl := pairRuns_length 2000 1
      rw [h] at hl
      cases hl
    · intro kc hkc
      exact hlen1 kc hkc

theorem bbLookup_map_replace (l : List (Nat × BBInfo)) (a : Nat) (v : BBInfo)
    (h : (l.find? (fun p => p.1 == a)).isSome = true) :
    bbLookup (l.map (fun p => if p.1 == a then (a, v) else p)) a = some v := by
  induction l with
  | nil => simp at h
  | cons p ps ih =>
    cases hpa : (p.1 == a) with
    | true =>
      simp only [List.map_cons, hpa, if_true]
      simp [bbLookup]
    | false =>
      simp only [List.map_cons, hpa, Bool.false_eq_true, if_false]
      rw [List.find?_cons_of_neg _ (by simp [hpa])] at h
      have := ih h
      rw [bbLookup] at this ⊢
      rw [List.find?_cons_of_neg _ (by simp [hpa])]
      exact this

theorem bbLookup_append_self (l : List (Nat × BBInfo)) (a : Nat) (v : BBInfo)
    (h : l.find? (fun p => p.1 == a) = none) :
    bbLookup (l ++ [(a, v)]) a = some v := by
  induction l with
  | nil => simp [bbLookup]
  | cons p ps ih =>
    rw [List.find?_cons] at h
    cases hpa : (p.1 == a) with
    | true => rw [hpa] at h; simp at h
    | false =>
      rw [hpa] at h
      simp only [List.cons_append]
      rw [bbLookup, List.find?_cons_of_neg _ (by simp [hpa])]
      exact ih h

/-- Reading back the entry just written through `BBInfos[a]`. -/
theorem bbLookup_bbSet_self (l : List (Nat × BBInfo)) (a : Nat) (v : BBInfo) :
    bbLookup (bbSet l a v) a = some v := by
  unfold bbSet
  cases hf : l.find? (fun p => p.1 == a) with
  | none => simp only [hf, Option.isSome_none, Bool.false_eq_true, if_false]
            exact bbLookup_append_self l a v hf
  | some q => simp only [hf, Option.isSome_some, if_true]
              exact bbLookup_map_replace l a v (by simp [hf])

/-- C6: when, inside a fresh linear disassembly, the loop ends with the
failed flag set after decoding at least one instruction, the worklist
iteration keeps the loop's module (the partial atom with exactly the
instructions decoded before the failure), records the atom on the
`BBInfo` with an *empty* successor list, and leaves the worklist and
tail-call accumulator untouched. -/
theorem decode_failure_keeps_atom_no_successors (env : Env) (st : GBState)
    (addr : Nat) (region : Region) (endAddr : Nat) (m' : MCModule)
    (od' : ODState) (taId : Nat) (ct' : List Nat) (t' : MCTextAtomData)
    (lastInst : MCDecodedInst) (reg2 : Region)
    (h0 : bbLookup st.bbinfos addr = none)
    (h1 : findAtomContaining st.module addr = none)
    (h2 : getRegionFor st.od.SectionRegions addr = some region)
    (h3 : disasmEndAddr st.module addr region = some endAddr)
    (h4 : disasmLoop env region endAddr (endAddr - addr) st.od st.module addr
      none st.callTargets = some (m', od', some taId, ct', true))
    (h5 : m'.Atoms.get? taId = some (.text t'))
    (h6 : t'.Insts.getLast? = some lastInst)
    (h7 : getRegionFor od'.SectionRegions t'.Begin = some reg2) :
    processAddr env st addr =
      some ⟨m', od', bbSet st.bbinfos addr ⟨some taId, none, []⟩,
            st.worklist, ct', st.tailCallTargets⟩ := by
  unfold processAddr atomLookupPhase
  rw [h0]
  simp only [Option.getD_none]
  rw [show (default : BBInfo).AtomId.isSome = false from rfl]
  simp only [Bool.false_eq_true, if_false]
  rw [h1]
  dsimp only
  rw [h2]
  dsimp only
  rw [h3]
  dsimp only
  rw [h4]
  dsimp only
  unfold addSuccessorsPhase
  rw [bbLookup_bbSet_self]
  simp only [Option.getD_some]
  try dsimp only
  rw [h5]
  try dsimp only
  rw [h6]
  try dsimp only
  rw [h7]
  rfl

def c6Env : Env :=
  ⟨[], [], fun r addr => if addr == r.Base then .ok 1 1 else .fail 1,
   fun _ => false, fun _ => false, fun _ => false, fun _ => false,
   fun _ _ _ => none, none⟩

def c6OD : ODState :=
  { initODState with SectionRegions := [⟨0x1000, [1, 99]⟩] }

def c6St : GBState := ⟨⟨0, [], []⟩, c6OD, [], [0x1000], [], []⟩

/-- Witness for C6: one instruction decodes at `0x1000`, the decoder then
fails at `0x1001`; the atom is kept and no successors or worklist entries
appear. -/
theorem decode_failure_keeps_atom_no_successors_witness :
    processAddr c6Env c6St 0x1000 =
      some ⟨⟨0, [.text ⟨0x1000, 0x1000, 0x1001, "", [⟨1, 0x1000, 1⟩]⟩], []⟩,
            { c6OD with TempInstKeys := [⟨[1], 0⟩], TempInstValues := [1],
                        Translated := 1 },
            [(0x1000, ⟨some 0, none, []⟩)], [0x1000], [], []⟩ :=
  decode_failure_keeps_atom_no_successors c6Env c6St 0x1000 ⟨0x1000, [1, 99]⟩
    0x1002 ⟨0, [.text ⟨0x1000, 0x1000, 0x1001, "", [⟨1, 0x1000, 1⟩]⟩], []⟩
    ({ c6OD with TempInstKeys := [⟨[1], 0⟩], TempInstValues := [1],
                 Translated := 1 })
    0 [] ⟨0x1000, 0x1000, 0x1001, "", [⟨1, 0x1000, 1⟩]⟩ ⟨1, 0x1000, 1⟩
    ⟨0x1000, [1, 99]⟩ rfl rfl rfl rfl (by decide) rfl rfl rfl

/-! ## Structural invariants of atoms (claims C7 and C8). -/

/-- Instruction chain check: the first instruction sits at `a` and each
subsequent instruction starts where the previous one ends. -/
def instsOk : Nat → List MCDecodedInst → Bool
  | _, [] => true
  | a, i :: r => (i.Address == a) && instsOk (i.Address + i.Size) r

/-- One past the end of an instruction chain (`a` itself when empty). -/
def instsEnd : Nat → List MCDecodedInst → Nat
  | a, [] => a
  | _, i :: r => instsEnd (i.Address + i.Size) r

/-- The C7 invariant on a text atom: non-empty instruction list whose
first instruction starts at `Begin`, contiguous, and ending exactly at
`AtomEnd` (one-past-the-end is `AtomEnd + 1`). -/
def textAtomWFb (t : MCTextAtomData) : Bool :=
  !t.Insts.isEmpty && instsOk t.Begin t.Insts &&
    (instsEnd t.Begin t.Insts == t.AtomEnd + 1)

/-- The C8 invariant on a data atom: as many bytes as addresses (plus a
non-degenerate range, which all data atoms of this program have). -/
def dataAtomWFb (d : MCDataAtomData) : Bool :=
  (d.Data.length == d.AtomEnd + 1 - d.Begin) && (d.Begin ≤ d.AtomEnd)

/-- All text atoms of a module satisfy the C7 invariant. -/
def moduleTextWFb (m : MCModule) : Bool :=
  m.Atoms.all (fun a => match a with
    | .text t => textAtomWFb t
    | .data _ => true)

/-- All data atoms of a module satisfy the C8 invariant. -/
def moduleDataWFb (m : MCModule) : Bool :=
  m.Atoms.all (fun a => match a with
    | .text _ => true
    | .data d => dataAtomWFb d)

/-- The decoder contract of spec §6: on success the reported size is
positive and the consumed bytes lie inside the queried region. -/
def DisWF (env : Env) : Prop :=
  ∀ r addr inst sz, env.getInstruction r addr = .ok inst sz →
    1 ≤ sz ∧ r.Base ≤ addr ∧ addr + sz ≤ r.Base + r.Bytes.length

/-- Cache sanity: no empty raw-byte key is ever stored. -/
def odWF (od : ODState) : Prop :=
  (∀ e ∈ od.CachedInsts, e.RawBytes ≠ []) ∧
  (∀ k ∈ od.TempInstKeys, k.RawBytes ≠ [])

/-- A text atom in mid-construction: either still empty (as
`createTextAtom` leaves it) or well-formed with `NextInstAddress` just
past its end. -/
def textAtomBuild (t : MCTextAtomData) : Prop :=
  (t.Insts = [] ∧ t.NextInstAddress = t.Begin ∧ t.AtomEnd = t.Begin) ∨
  (textAtomWFb t = true ∧ t.NextInstAddress = t.AtomEnd + 1)

theorem instsOk_append (l1 : List MCDecodedInst) :
    ∀ (a : Nat) (l2 : List MCDecodedInst),
    instsOk a (l1 ++ l2) = (instsOk a l1 && instsOk (instsEnd a l1) l2) := by
  induction l1 with
  | nil => intro a l2; simp [instsOk, instsEnd]
  | cons i r ih =>
    intro a l2
    rw [List.cons_append, instsOk, instsOk, instsEnd, ih (i.Address + i.Size) l2,
      Bool.and_assoc]

theorem instsEnd_append (l1 : List MCDecodedInst) :
    ∀ (a : Nat) (l2 : List MCDecodedInst),
    instsEnd a (l1 ++ l2) = instsEnd (instsEnd a l1) l2 := by
  induction l1 with
  | nil => intro a l2; rfl
  | cons i r ih =>
    intro a l2
    show instsEnd (i.Address + i.Size) (r ++ l2) =
      instsEnd (instsEnd (i.Address + i.Size) r) l2
    exact ih _ _

theorem instsEnd_cons_irrel (a b : Nat) (i : MCDecodedInst)
    (l : List MCDecodedInst) :
    instsEnd a (i :: l) = instsEnd b (i :: l) := by
  rw [instsEnd, instsEnd]

/-- Membership view of `moduleTextWFb`. -/
theorem moduleTextWFb_mem {m : MCModule} (h : moduleTextWFb m = true)
    {t : MCTextAtomData} (ht : MCAtom.text t ∈ m.Atoms) :
    textAtomWFb t = true := by
  rw [moduleTextWFb, List.all_eq_true] at h
  exact h _ ht

theorem moduleDataWFb_mem {m : MCModule} (h : moduleDataWFb m = true)
    {d : MCDataAtomData} (hd : MCAtom.data d ∈ m.Atoms) :
    dataAtomWFb d = true := by
  rw [moduleDataWFb, List.all_eq_true] at h
  exact h _ hd

theorem moduleTextWFb_set {m : MCModule} (h : moduleTextWFb m = true)
    (i : Nat) {a : MCAtom}
    (ha : ∀ t, a = MCAtom.text t → textAtomWFb t = true) :
    moduleTextWFb { m with Atoms := m.Atoms.set i a } = true := by
  rw [moduleTextWFb, List.all_eq_true]
  intro x hx
  rcases List.mem_or_eq_of_mem_set hx with hm | rfl
  · rw [moduleTextWFb, List.all_eq_true] at h
    exact h _ hm
  · cases x with
    | text t => exact ha t rfl
    | data d => rfl

theorem moduleDataWFb_set {m : MCModule} (h : moduleDataWFb m = true)
    (i : Nat) {a : MCAtom}
    (ha : ∀ d, a = MCAtom.data d → dataAtomWFb d = true) :
    moduleDataWFb { m with Atoms := m.Atoms.set i a } = true := by
  rw [moduleDataWFb, List.all_eq_true]
  intro x hx
  rcases List.mem_or_eq_of_mem_set hx with hm | rfl
  · rw [moduleDataWFb, List.all_eq_true] at h
    exact h _ hm
  · cases x with
    | text t => rfl
    | data d => exact ha d rfl

theorem moduleTextWFb_append {m : MCModule} (h : moduleTextWFb m = true)
    {a : MCAtom} (ha : ∀ t, a = MCAtom.text t → textAtomWFb t = true) :
    moduleTextWFb { m with Atoms := m.Atoms ++ [a] } = true := by
  rw [moduleTextWFb, List.all_eq_true]
  intro x hx
  rcases List.mem_append.mp hx with hm | hm
  · rw [moduleTextWFb, List.all_eq_true] at h
    exact h _ hm
  · rw [List.mem_singleton] at hm
    subst hm
    cases x with
    | text t => exact ha t rfl
    | data d => rfl

theorem moduleDataWFb_append {m : MCModule} (h : moduleDataWFb m = true)
    {a : MCAtom} (ha : ∀ d, a = MCAtom.data d → dataAtomWFb d = true) :
    moduleDataWFb { m with Atoms := m.Atoms ++ [a] } = true := by
  rw [moduleDataWFb, List.all_eq_true]
  intro x hx
  rcases List.mem_append.mp hx with hm | hm
  · rw [moduleDataWFb, List.all_eq_true] at h
    exact h _ hm
  · rw [List.mem_singleton] at hm
    subst hm
    cases x with
    | text t => rfl
    | data d => exact ha d rfl

theorem get?_set_self {α : Type} (l : List α) (i : Nat) (a b : α)
    (h : l.get? i = some b) : (l.set i a).get? i = some a := by
  have hi : i < l.length := by
    by_contra hge
    rw [List.get?_eq_none.mpr (Nat.le_of_not_lt hge)] at h
    cases h
  rw [List.get?_eq_getElem?]
  simp [List.getElem?_set, hi]

theorem set_of_get? {α : Type} : ∀ (l : List α) (i : Nat) (a : α),
    l.get? i = some a → l.set i a = l
  | [], i, a, h => by cases h
  | x :: xs, 0, a, h => by
    rw [List.get?_cons_zero, Option.some_inj] at h
    rw [h, List.set_cons_zero]
  | x :: xs, i + 1, a, h => by
    rw [List.get?_cons_succ] at h
    rw [List.set_cons_succ, set_of_get? xs i a h]

theorem set_concat_self {α : Type} : ∀ (l : List α) (a b : α),
    (l ++ [a]).set l.length b = l ++ [b]
  | [], _, _ => rfl
  | x :: xs, a, b => by
    rw [List.cons_append, List.length_cons, List.set_cons_succ,
      set_concat_self xs a b, List.cons_append]

/-- `addInst` written out on a known text atom. -/
theorem addInst_eq (m : MCModule) (aid inst sz : Nat) (t : MCTextAtomData)
    (h : m.Atoms.get? aid = some (.text t)) :
    addInst m aid inst sz = { m with Atoms := m.Atoms.set aid (.text
      ⟨t.Begin,
       (if t.AtomEnd < t.NextInstAddress + sz - 1 then t.NextInstAddress + sz - 1
        else t.AtomEnd),
       t.NextInstAddress + sz, t.Name,
       t.Insts ++ [⟨inst, t.NextInstAddress, sz⟩]⟩) } := by
  unfold addInst
  rw [h]

theorem textAtomWFb_iff (t : MCTextAtomData) :
    textAtomWFb t = true ↔
      t.Insts.isEmpty = false ∧ instsOk t.Begin t.Insts = true ∧
      instsEnd t.Begin t.Insts = t.AtomEnd + 1 := by
  unfold textAtomWFb
  cases he : t.Insts.isEmpty <;>
    cases hok : instsOk t.Begin t.Insts <;> simp [he, hok]

/-- Appending one positive-size instruction to an atom in construction
yields a well-formed atom still in construction. -/
theorem addInstT_build (t : MCTextAtomData) (inst sz : Nat)
    (hb : textAtomBuild t) (hsz : 1 ≤ sz) :
    textAtomWFb
      ⟨t.Begin,
       (if t.AtomEnd < t.NextInstAddress + sz - 1 then t.NextInstAddress + sz - 1
        else t.AtomEnd),
       t.NextInstAddress + sz, t.Name,
       t.Insts ++ [⟨inst, t.NextInstAddress, sz⟩]⟩ = true ∧
    t.NextInstAddress + sz =
      (if t.AtomEnd < t.NextInstAddress + sz - 1 then t.NextInstAddress + sz - 1
       else t.AtomEnd) + 1 := by
  rcases hb with ⟨hnil, hnext, hend⟩ | ⟨hwf, hnext⟩
  · rw [hnil, hnext, hend]
    constructor
    · simp only [textAtomWFb, List.nil_append]
      have h1 : instsOk t.Begin [⟨inst, t.Begin, sz⟩] = true := by
        simp [instsOk]
      have h2 : instsEnd t.Begin [⟨inst, t.Begin, sz⟩] = t.Begin + sz := rfl
      rw [h1, h2]
      simp only [List.isEmpty, Bool.not_false, Bool.true_and, Bool.and_true]
      by_cases hc : t.Begin < t.Begin + sz - 1
      · rw [if_pos hc]; simp; omega
      · rw [if_neg hc]; simp; omega
    · by_cases hc : t.Begin < t.Begin + sz - 1
      · rw [if_pos hc]; omega
      · rw [if_neg hc]; omega
  · rw [textAtomWFb_iff] at hwf
    obtain ⟨hne, hok, hend⟩ := hwf
    have hcond : t.AtomEnd < t.NextInstAddress + sz - 1 := by omega
    rw [if_pos hcond]
    constructor
    · rw [textAtomWFb_iff]
      dsimp only
      refine ⟨?_, ?_, ?_⟩
      · cases t.Insts <;> rfl
      · rw [instsOk_append, hok, hend, ← hnext]
        simp [instsOk]
      · rw [instsEnd_append, hend, ← hnext]
        rw [show instsEnd t.NextInstAddress [⟨inst, t.NextInstAddress, sz⟩] =
          t.NextInstAddress + sz from rfl]
        omega
    · omega

/-- `createTextAtom` immediately followed by `addInst` (the only way the
builder ever creates text atoms): one appended single-instruction atom. -/
theorem createText_addInst_eq (m : MCModule) (a inst sz : Nat) :
    addInst (createTextAtom m a a).1 (createTextAtom m a a).2 inst sz =
      { m with Atoms := m.Atoms ++
          [.text ⟨a, (if a < a + sz - 1 then a + sz - 1 else a), a + sz, "",
                  [⟨inst, a, sz⟩]⟩] } := by
  have h0 : createTextAtom m a a =
      ({ m with Atoms := m.Atoms ++ [.text ⟨a, a, a, "", []⟩] }, m.Atoms.length) := rfl
  rw [h0]
  rw [addInst_eq _ m.Atoms.length inst sz ⟨a, a, a, "", []⟩
    (List.get?_concat_length m.Atoms _)]
  dsimp only
  rw [set_concat_self, List.nil_append]

theorem getMem {α : Type} {l : List α} {i : Nat} {a : α}
    (h : l.get? i = some a) : a ∈ l := by
  induction l generalizing i with
  | nil => cases h
  | cons x xs ih =>
    cases i with
    | zero =>
      rw [List.get?_cons_zero, Option.some_inj] at h
      exact h ▸ List.mem_cons_self x xs
    | succ i =>
      rw [List.get?_cons_succ] at h
      exact List.mem_cons_of_mem x (ih h)

theorem addInst_dataWF (m : MCModule) (aid inst sz : Nat)
    (h : moduleDataWFb m = true) :
    moduleDataWFb (addInst m aid inst sz) = true := by
  unfold addInst
  cases hg : m.Atoms.get? aid with
  | none => exact h
  | some a =>
    cases a with
    | text t => exact moduleDataWFb_set h aid (fun d hd => by cases hd)
    | data d => exact h

theorem createTextAtom_dataWF (m : MCModule) (b e : Nat)
    (h : moduleDataWFb m = true) :
    moduleDataWFb (createTextAtom m b e).1 = true :=
  moduleDataWFb_append h (fun d hd => by cases hd)

theorem createDataAtom_textWF (m : MCModule) (b e : Nat)
    (h : moduleTextWFb m = true) :
    moduleTextWFb (createDataAtom m b e).1 = true :=
  moduleTextWFb_append h (fun t ht => by cases ht)

theorem addData_textWF (m : MCModule) (aid b : Nat)
    (h : moduleTextWFb m = true) :
    moduleTextWFb (addData m aid b) = true := by
  unfold addData
  cases hg : m.Atoms.get? aid with
  | none => exact h
  | some a =>
    cases a with
    | text t => exact h
    | data d =>
      dsimp only
      by_cases hc : d.AtomEnd + 1 - d.Begin < d.Data.length + 1
      · exact moduleTextWFb_set h aid (fun t ht => by
          simp only [List.length_append, List.length_cons, List.length_nil] at ht ⊢
          split at ht <;> cases ht)
      · exact moduleTextWFb_set h aid (fun t ht => by
          split at ht <;> cases ht)

theorem addData_foldRange_textWF (m : MCModule) (aid : Nat) (g : Nat → Nat)
    (k : Nat) (h : moduleTextWFb m = true) :
    moduleTextWFb ((List.range k).foldl (fun m i => addData m aid (g i)) m)
      = true := by
  induction k generalizing m with
  | zero => exact h
  | succ k ih =>
    rw [List.range_succ, List.foldl_append]
    exact addData_textWF _ aid _ (ih m h)

theorem setAtomName_textWF (m : MCModule) (aid : Nat) (n : String)
    (h : moduleTextWFb m = true) :
    moduleTextWFb (setAtomName m aid n) = true := by
  unfold setAtomName
  cases hg : m.Atoms.get? aid with
  | none => exact h
  | some a =>
    cases a with
    | text t =>
      refine moduleTextWFb_set h aid (fun t' ht => ?_)
      cases ht
      have : textAtomWFb { t with Name := n } = textAtomWFb t := rfl
      rw [this]
      exact moduleTextWFb_mem h (getMem hg)
    | data d => exact moduleTextWFb_set h aid (fun t' ht => by cases ht)

theorem setAtomName_dataWF (m : MCModule) (aid : Nat) (n : String)
    (h : moduleDataWFb m = true) :
    moduleDataWFb (setAtomName m aid n) = true := by
  unfold setAtomName
  cases hg : m.Atoms.get? aid with
  | none => exact h
  | some a =>
    cases a with
    | text t => exact moduleDataWFb_set h aid (fun d' hd => by cases hd)
    | data d =>
      refine moduleDataWFb_set h aid (fun d' hd => ?_)
      cases hd
      have : dataAtomWFb { d with Name := n } = dataAtomWFb d := rfl
      rw [this]
      exact moduleDataWFb_mem h (getMem hg)

theorem splitTextAtom_dataWF (m : MCModule) (aid a : Nat) (m' : MCModule)
    (newAid : Nat) (h : splitTextAtom m aid a = some (m', newAid))
    (hm : moduleDataWFb m = true) : moduleDataWFb m' = true := by
  unfold splitTextAtom at h
  cases hg : m.Atoms.get? aid with
  | none => rw [hg] at h; cases h
  | some at0 =>
    rw [hg] at h
    cases at0 with
    | data d => cases h
    | text t =>
      dsimp only at h
      by_cases hrange : t.Begin < a ∧ a ≤ t.AtomEnd
      · rw [if_pos hrange] at h
        cases hd : t.Insts.dropWhile (fun i => i.Address < a) with
        | nil => rw [hd] at h; cases h
        | cons hi rest =>
          rw [hd] at h
          dsimp only at h
          by_cases hia : hi.Address = a
          · rw [if_pos hia] at h
            simp only [Option.some_inj, Prod.mk.injEq] at h
            rw [← h.1]
            have h1 : moduleDataWFb { m with Atoms := (m.Atoms.set aid
                (MCAtom.text ⟨t.Begin, a - 1, t.NextInstAddress, t.Name,
                  t.Insts.takeWhile (fun i => i.Address < a)⟩)) } = true :=
              moduleDataWFb_set hm aid (fun d hd => by cases hd)
            exact moduleDataWFb_append h1 (fun d hd => by cases hd)
          · rw [if_neg hia] at h; cases h
      · rw [if_neg hrange] at h; cases h

/-- Splitting a well-formed text atom at an instruction boundary leaves
both halves well-formed. -/
theorem splitTextAtom_textWF (m : MCModule) (aid a : Nat) (m' : MCModule)
    (newAid : Nat) (h : splitTextAtom m aid a = some (m', newAid))
    (hm : moduleTextWFb m = true) : moduleTextWFb m' = true := by
  unfold splitTextAtom at h
  cases hg : m.Atoms.get? aid with
  | none => rw [hg] at h; cases h
  | some at0 =>
    rw [hg] at h
    cases at0 with
    | data d => cases h
    | text t =>
      dsimp only at h
      by_cases hrange : t.Begin < a ∧ a ≤ t.AtomEnd
      · rw [if_pos hrange] at h
        cases hd : t.Insts.dropWhile (fun i => i.Address < a) with
        | nil => rw [hd] at h; cases h
        | cons hi rest =>
          rw [hd] at h
          dsimp only at h
          by_cases hia : hi.Address = a
          · rw [if_pos hia] at h
            simp only [Option.some_inj, Prod.mk.injEq] at h
            rw [← h.1]
            obtain ⟨hne, hok, hend⟩ :=
              (textAtomWFb_iff t).mp (moduleTextWFb_mem hm (getMem hg))
            have hsplit : t.Insts =
                t.Insts.takeWhile (fun i => i.Address < a) ++ (hi :: rest) := by
              rw [← hd, List.takeWhile_append_dropWhile]
            have hok2 := hok
            rw [hsplit, instsOk_append, Bool.and_eq_true] at hok2
            obtain ⟨hokL, hokR⟩ := hok2
            have hokR2 := hokR
            rw [instsOk, Bool.and_eq_true] at hokR2
            have hjun : instsEnd t.Begin
                (t.Insts.takeWhile (fun i => i.Address < a)) = a := by
              have h3 := (beq_iff_eq.mp hokR2.1).symm
              rw [hia] at h3
              exact h3
            have hend2 := hend
            rw [hsplit, instsEnd_append, hjun] at hend2
            have hlowsne :
                (t.Insts.takeWhile (fun i => i.Address < a)).isEmpty = false := by
              cases hti : t.Insts with
              | nil => rw [hti] at hne; simp at hne
              | cons i0 r0 =>
                have hok3 := hok
                rw [hti, instsOk, Bool.and_eq_true] at hok3
                have hi0 : i0.Address = t.Begin := beq_iff_eq.mp hok3.1
                rw [List.takeWhile_cons_of_pos
                  (by simp only [hi0, decide_eq_true_eq]; exact hrange.1)]
                rfl
            have hLwf : textAtomWFb ⟨t.Begin, a - 1, t.NextInstAddress, t.Name,
                t.Insts.takeWhile (fun i => i.Address < a)⟩ = true := by
              rw [textAtomWFb_iff]
              refine ⟨hlowsne, hokL, ?_⟩
              dsimp only
              rw [hjun]
              omega
            have hRwf : textAtomWFb ⟨a, t.AtomEnd, a, t.Name, hi :: rest⟩ = true := by
              rw [textAtomWFb_iff]
              refine ⟨rfl, ?_, ?_⟩
              · dsimp only
                rw [← hjun]
                exact hokR
              · dsimp only
                exact hend2
            have h1 : moduleTextWFb { m with Atoms := (m.Atoms.set aid
                (MCAtom.text ⟨t.Begin, a - 1, t.NextInstAddress, t.Name,
                  t.Insts.takeWhile (fun i => i.Address < a)⟩)) } = true :=
              moduleTextWFb_set hm aid (fun t' ht => by cases ht; exact hLwf)
            refine moduleTextWFb_append h1 (fun t' ht => ?_)
            cases ht
            exact hRwf
          · rw [if_neg hia] at h; cases h
      · rw [if_neg hrange] at h; cases h

theorem dataAtomWFb_iff (d : MCDataAtomData) :
    dataAtomWFb d = true ↔
      d.Data.length = d.AtomEnd + 1 - d.Begin ∧ d.Begin ≤ d.AtomEnd := by
  unfold dataAtomWFb
  rw [Bool.and_eq_true, beq_iff_eq, decide_eq_true_eq]

/-- `addData` written out on a known data atom. -/
theorem addData_eq (m : MCModule) (aid b : Nat) (d : MCDataAtomData)
    (h : m.Atoms.get? aid = some (.data d)) :
    addData m aid b = { m with Atoms := m.Atoms.set aid (.data
      (if d.AtomEnd + 1 - d.Begin < d.Data.length + 1
       then ⟨d.Begin, d.AtomEnd + 1, d.Name, d.Data ++ [b]⟩
       else ⟨d.Begin, d.AtomEnd, d.Name, d.Data ++ [b]⟩)) } := by
  unfold addData
  rw [h]
  dsimp only
  simp only [List.length_append, List.length_cons, List.length_nil]

/-- Filling a data atom that still has room: bytes are appended and the
range is untouched. -/
theorem addData_fold_fill : ∀ (bs : List Nat) (m : MCModule) (aid : Nat)
    (d : MCDataAtomData), m.Atoms.get? aid = some (.data d) →
    d.Data.length + bs.length ≤ d.AtomEnd + 1 - d.Begin →
    bs.foldl (fun m b => addData m aid b) m =
      { m with Atoms := (m.Atoms.set aid
          (.data ⟨d.Begin, d.AtomEnd, d.Name, d.Data ++ bs⟩)) }
  | [], m, aid, d, h, _ => by
    simp only [List.foldl_nil, List.append_nil]
    rw [show (⟨d.Begin, d.AtomEnd, d.Name, d.Data⟩ : MCDataAtomData) = d from rfl,
      set_of_get? _ _ _ h]
  | b :: bs, m, aid, d, h, hle => by
    simp only [List.length_cons] at hle
    rw [List.foldl_cons, addData_eq m aid b d h,
      if_neg (by omega : ¬ d.AtomEnd + 1 - d.Begin < d.Data.length + 1)]
    rw [addData_fold_fill bs _ aid ⟨d.Begin, d.AtomEnd, d.Name, d.Data ++ [b]⟩
      (get?_set_self _ _ _ _ h)
      (by simp only [List.length_append, List.length_cons, List.length_nil]; omega)]
    dsimp only
    rw [List.set_set, List.append_assoc, List.singleton_append]

/-- Extending a full data atom: each byte also extends the range, so the
length invariant is preserved. -/
theorem addData_fold_extend : ∀ (bs : List Nat) (m : MCModule) (aid : Nat)
    (d : MCDataAtomData), m.Atoms.get? aid = some (.data d) →
    dataAtomWFb d = true →
    (bs.foldl (fun m b => addData m aid b) m =
      { m with Atoms := (m.Atoms.set aid
          (.data ⟨d.Begin, d.AtomEnd + bs.length, d.Name, d.Data ++ bs⟩)) }) ∧
    dataAtomWFb ⟨d.Begin, d.AtomEnd + bs.length, d.Name, d.Data ++ bs⟩ = true
  | [], m, aid, d, h, hwf => by
    constructor
    · simp only [List.foldl_nil, List.append_nil, List.length_nil, Nat.add_zero]
      rw [show (⟨d.Begin, d.AtomEnd, d.Name, d.Data⟩ : MCDataAtomData) = d from rfl,
        set_of_get? _ _ _ h]
    · simp only [List.length_nil, Nat.add_zero, List.append_nil]
      rw [show (⟨d.Begin, d.AtomEnd, d.Name, d.Data⟩ : MCDataAtomData) = d from rfl]
      exact hwf
  | b :: bs, m, aid, d, h, hwf => by
    obtain ⟨hlen, hbe⟩ := (dataAtomWFb_iff d).mp hwf
    have hwf1 : dataAtomWFb ⟨d.Begin, d.AtomEnd + 1, d.Name, d.Data ++ [b]⟩ = true := by
      rw [dataAtomWFb_iff]
      dsimp only
      simp only [List.length_append, List.length_cons, List.length_nil]
      omega
    rw [List.foldl_cons, addData_eq m aid b d h,
      if_pos (by omega : d.AtomEnd + 1 - d.Begin < d.Data.length + 1)]
    obtain ⟨hfold, hwf2⟩ := addData_fold_extend bs
      { m with Atoms := (m.Atoms.set aid
          (.data ⟨d.Begin, d.AtomEnd + 1, d.Name, d.Data ++ [b]⟩)) }
      aid ⟨d.Begin, d.AtomEnd + 1, d.Name, d.Data ++ [b]⟩
      (get?_set_self _ _ _ _ h) hwf1
    constructor
    · rw [hfold]
      dsimp only
      rw [List.set_set, List.append_assoc, List.singleton_append,
        show d.AtomEnd + 1 + bs.length = d.AtomEnd + (bs.length + 1) from by omega,
        show (b :: bs).length = bs.length + 1 from rfl]
    · rw [show (b :: bs).length = bs.length + 1 from rfl,
        show d.AtomEnd + (bs.length + 1) = d.AtomEnd + 1 + bs.length from by omega]
      dsimp only at hwf2
      rw [List.append_assoc, List.singleton_append] at hwf2
      exact hwf2

/-- A fixture for C4: instruction 7 is a conditional branch (and
terminator) whose evaluated target is the address right after it; the
symbolizer calls every address external (`printf`). -/
def c4Env : Env where
  sections := []
  symbols := []
  getInstruction := fun _ _ => .fail 1
  isBranch := fun i => i == 7
  isConditionalBranch := fun i => i == 7
  isCall := fun _ => false
  isTerminator := fun i => i == 7
  evaluateBranch := fun i a s => if i == 7 then some (a + s) else none
  mos := some (fun _ => "printf")

def c4OD : ODState :=
  { initODState with SectionRegions := [⟨0x1000, List.replicate 16 0⟩] }

def c4Module : MCModule :=
  ⟨0, [.text ⟨0x1000, 0x1001, 0x1002, "", [⟨7, 0x1000, 2⟩]⟩], []⟩

def c4BBInfos : List (Nat × BBInfo) := [(0x1000, ⟨some 0, none, []⟩)]

/-- C4, counterexample to the claim as stated: the block at `0x1000` ends
in a *conditional* branch whose resolved target `T = 0x1002` is exactly
the fallthrough address, and the symbolizer names `T` externally.  `T` is
recorded in both `CallTargets` and `TailCallTargets` as the claim says,
but — through the independent fallthrough rule — `T` nevertheless ends up
in the block's successor-address list *and* in the worklist, refuting
"T is not added to the block's successor-address list, and T is not
inserted into the worklist". -/
theorem getBBAt_external_tailcall_claim_cex :
    c4Env.isBranch 7 = true ∧
    c4Env.isConditionalBranch 7 = true ∧
    c4Env.evaluateBranch 7 0x1000 2 = some 0x1002 ∧
    (match c4Env.mos with
     | some f => f (getOriginalLoadAddr 0x1002)
     | none => "") = "printf" ∧
    addSuccessorsPhase c4Env c4OD c4Module c4BBInfos [0x1000] 0x1000 [] [] false =
      some ([(0x1000, ⟨some 0, none, [0x1002]⟩)], [0x1000, 0x1002],
            [0x1002], [0x1002]) ∧
    (0x1002 : Nat) ∈ [0x1002] ∧ (0x1002 : Nat) ∈ [0x1000, 0x1002] := by
  refine ⟨rfl, rfl, rfl, rfl, rfl, ?_, ?_⟩ <;> decide

/-- C4, amended: when the trailing instruction's branch target `T`
resolves and the block did not fail disassembly, the branch handling
itself contributes `T` to `TailCallTargets` and `CallTargets` (external
name) or to the successors and worklist (otherwise) — and the successor
list and worklist otherwise change only by the independent fallthrough
rule, which can itself add `T` when the branch is conditional and `T`
equals the fallthrough address `end+1`. -/
theorem addSuccessorsPhase_branch_target (env : Env) (od : ODState)
    (m : MCModule) (bbinfos : List (Nat × BBInfo)) (wl : List Nat)
    (addr : Nat) (ct tct : List Nat) (bbi : BBInfo) (aid : Nat)
    (t : MCTextAtomData) (lastInst : MCDecodedInst) (reg : Region) (target : Nat)
    (h1 : bbLookup bbinfos addr = some bbi)
    (h2 : bbi.AtomId = some aid)
    (h3 : m.Atoms.get? aid = some (.text t))
    (h4 : t.Insts.getLast? = some lastInst)
    (h5 : getRegionFor od.SectionRegions t.Begin = some reg)
    (h6 : env.isBranch lastInst.Inst = true)
    (h7 : env.evaluateBranch lastInst.Inst lastInst.Address lastInst.Size =
      some target) :
    addSuccessorsPhase env od m bbinfos wl addr ct tct false =
      (let extFnName := match env.mos with
        | some f => f (getOriginalLoadAddr target)
        | none => ""
      let ft := (env.isConditionalBranch lastInst.Inst ||
                 !env.isTerminator lastInst.Inst) &&
                decide (t.AtomEnd + 1 < reg.Base + reg.Bytes.length)
      some (bbSet bbinfos addr
              { bbi with SuccAddrs := bbi.SuccAddrs ++
                  (if ft then [t.AtomEnd + 1] else []) ++
                  (if extFnName = "" then [target] else []) },
            (if extFnName = "" then
              wlInsert (if ft then wlInsert wl (t.AtomEnd + 1) else wl) target
             else (if ft then wlInsert wl (t.AtomEnd + 1) else wl)),
            ct ++ (if extFnName = "" then [] else [target]),
            tct ++ (if extFnName = "" then [] else [target]))) := by
  obtain ⟨bAtom, bBB, bSucc⟩ := bbi
  simp only at h2
  subst h2
  unfold addSuccessorsPhase
  rw [h1]
  simp only [Option.getD_some, h3, h4, h5, h6, h7]
  cases hft : (env.isConditionalBranch lastInst.Inst ||
      !env.isTerminator lastInst.Inst) &&
      decide (t.AtomEnd + 1 < reg.Base + reg.Bytes.length) with
  | true =>
    simp only [hft, if_true, Bool.true_eq_false, if_false]
    cases hmos : env.mos with
    | none => simp
    | some f =>
      by_cases hname : f (getOriginalLoadAddr target) = ""
      · simp [hname]
      · simp [hname]
  | false =>
    simp only [hft, Bool.false_eq_true, if_false]
    cases hmos : env.mos with
    | none => simp
    | some f =>
      by_cases hname : f (getOriginalLoadAddr target) = ""
      · simp [hname]
      · simp [hname]

/-- Witness for the amended C4 theorem at the concrete fixture above. -/
theorem addSuccessorsPhase_branch_target_witness :
    addSuccessorsPhase c4Env c4OD c4Module c4BBInfos [0x1000] 0x1000 [] [] false =
      some ([(0x1000, ⟨some 0, none, [0x1002]⟩)], [0x1000, 0x1002],
            [0x1002], [0x1002]) := by
  rw [addSuccessorsPhase_branch_target c4Env c4OD c4Module c4BBInfos [0x1000]
    0x1000 [] [] ⟨some 0, none, []⟩ 0 ⟨0x1000, 0x1001, 0x1002, "", [⟨7, 0x1000, 2⟩]⟩
    ⟨7, 0x1000, 2⟩ ⟨0x1000, List.replicate 16 0⟩ 0x1002
    (by decide) rfl (by decide) (by decide) (by decide) (by decide) (by decide)]
  decide

/-- Witness for C10 at a concrete symbolizer and module. -/
theorem createFunction_external_always_allocates_witness :
    createFunction ⟨[], [], fun _ _ => .fail 1, fun _ => false, fun _ => false,
        fun _ => false, fun _ => false, fun _ _ _ => none,
        some (fun _ => "printf")⟩ 0 initODState ⟨0, [], []⟩ 0x9000 [] [] =
      some (⟨0, [], [⟨"printf", []⟩]⟩, initODState, [], [], 0) :=
  ((createFunction_external_always_allocates _ 0 initODState ⟨0, [], []⟩ 0x9000 [] []
      (fun _ => "printf") rfl (by decide)).1)

/-! ## Claims C7 and C8: invariant preservation through the builders. -/

theorem getD_mem {α : Type} : ∀ (l : List α) (j : Nat) (d : α),
    j < l.length → l.getD j d ∈ l
  | [], _, _, h => absurd h (by simp)
  | x :: xs, 0, _, _ => List.mem_cons_self x xs
  | x :: xs, j + 1, d, h =>
    List.mem_cons_of_mem x (getD_mem xs j d (Nat.lt_of_succ_lt_succ h))

theorem sortLe_mem {α : Type} (le : α → α → Bool) (l : List α) (x : α) :
    x ∈ sortLe le l ↔ x ∈ l :=
  (sortLe_perm le l).mem_iff

/-- Every run index produced by the duplicate-counting sweep points into
the key list. -/
theorem countRunsAux_idx_bound : ∀ (ks : List TempInstKey) (i : Nat)
    (prev : Option (List Nat × Nat × Nat)),
    (∀ lb ki c, prev = some (lb, ki, c) → ki < i) →
    ∀ p ∈ countRunsAux ks i prev, p.1 < i + ks.length
  | [], _, none, _, _, hp => by cases hp
  | [], i, some (lb, ki, c), hprev, p, hp => by
    rw [countRunsAux, List.mem_singleton] at hp
    subst hp
    simpa using hprev lb ki c rfl
  | k :: ks, i, none, _, p, hp => by
    rw [countRunsAux] at hp
    have := countRunsAux_idx_bound ks (i + 1) (some (k.RawBytes, i, 1))
      (fun lb' ki' c' he => by
        simp only [Option.some_inj, Prod.mk.injEq] at he
        obtain ⟨-, h2, -⟩ := he
        omega) p hp
    simp only [List.length_cons]
    omega
  | k :: ks, i, some (lb, ki, c), hprev, p, hp => by
    rw [countRunsAux] at hp
    by_cases hlb : lb = k.RawBytes
    · rw [if_pos hlb] at hp
      have := countRunsAux_idx_bound ks (i + 1) (some (lb, ki, c + 1))
        (fun lb' ki' c' he => by
          simp only [Option.some_inj, Prod.mk.injEq] at he
          obtain ⟨-, h2, -⟩ := he
          have := hprev lb ki c rfl
          omega) p hp
      simp only [List.length_cons]
      omega
    · rw [if_neg hlb] at hp
      rcases List.mem_cons.mp hp with rfl | hp2
      · have := hprev lb ki c rfl
        simp only [List.length_cons]
        omega
      · have := countRunsAux_idx_bound ks (i + 1) (some (k.RawBytes, i, 1))
          (fun lb' ki' c' he => by
            simp only [Option.some_inj, Prod.mk.injEq] at he
            obtain ⟨-, h2, -⟩ := he
            omega) p hp2
        simp only [List.length_cons]
        omega

theorem countRuns_idx_bound (keys : List TempInstKey) :
    ∀ p ∈ countRuns keys, p.1 < keys.length := by
  intro p hp
  have := countRunsAux_idx_bound keys 0 none (fun lb ki c h => by cases h) p hp
  simpa using this

/-- The seeding fold of `uniqueTempInstructions` (cache entries merged
into the temp keys), named for reuse in the invariant proofs. -/
def seedTemp (st : ODState) : List TempInstKey × List Nat :=
  st.CachedInsts.foldl
    (fun (p : List TempInstKey × List Nat) ce =>
      (p.1 ++ [⟨ce.RawBytes, p.2.length⟩], p.2 ++ [ce.Inst]))
    (st.TempInstKeys, st.TempInstValues)

theorem seedFold_mem : ∀ (l : List CachedInstEntry)
    (p : List TempInstKey × List Nat) (x : TempInstKey),
    x ∈ (l.foldl (fun (p : List TempInstKey × List Nat) ce =>
      (p.1 ++ [⟨ce.RawBytes, p.2.length⟩], p.2 ++ [ce.Inst])) p).1 →
    x ∈ p.1 ∨ ∃ ce ∈ l, x.RawBytes = ce.RawBytes
  | [], _, _, h => Or.inl h
  | ce :: l, p, x, h => by
    rw [List.foldl_cons] at h
    rcases seedFold_mem l _ x h with h1 | ⟨ce', hce', hx⟩
    · rcases List.mem_append.mp h1 with h2 | h2
      · exact Or.inl h2
      · rw [List.mem_singleton] at h2
        subst h2
        exact Or.inr ⟨ce, List.mem_cons_self _ _, rfl⟩
    · exact Or.inr ⟨ce', List.mem_cons_of_mem _ hce', hx⟩

theorem seedTemp_keys_ne_nil (st : ODState) (h : odWF st) :
    ∀ k ∈ sortLe tempKeyLe (seedTemp st).1, k.RawBytes ≠ [] := by
  intro k hk
  rw [sortLe_mem] at hk
  rcases seedFold_mem st.CachedInsts _ k hk with h1 | ⟨ce, hce, hx⟩
  · exact h.2 k h1
  · rw [hx]
    exact h.1 ce hce

/-- Uniquing never stores an empty raw-byte key. -/
theorem uniqueTempInstructions_odWF (st : ODState) (h : odWF st) :
    odWF (uniqueTempInstructions st) := by
  constructor
  · intro e he
    have hc : (uniqueTempInstructions st).CachedInsts = sortLe cachedLe
        (((sortLe keyCountLe (countRuns (sortLe tempKeyLe (seedTemp st).1))).take 2000).map
          (fun kc =>
            (⟨((sortLe tempKeyLe (seedTemp st).1).getD kc.1 ⟨[], 0⟩).RawBytes,
              (seedTemp st).2.getD
                ((sortLe tempKeyLe (seedTemp st).1).getD kc.1 ⟨[], 0⟩).ValueIdx 0⟩ :
              CachedInstEntry))) := rfl
    rw [hc, sortLe_mem, List.mem_map] at he
    obtain ⟨kc, hkc, rfl⟩ := he
    have hkc2 : kc ∈ countRuns (sortLe tempKeyLe (seedTemp st).1) := by
      have h2 := List.take_subset 2000 _ hkc
      rw [sortLe_mem] at h2
      exact h2
    have hbound : kc.1 < (sortLe tempKeyLe (seedTemp st).1).length :=
      countRuns_idx_bound _ kc hkc2
    exact seedTemp_keys_ne_nil st h _ (getD_mem _ _ _ hbound)
  · intro k hk
    have ht : (uniqueTempInstructions st).TempInstKeys = [] := rfl
    rw [ht] at hk
    cases hk

theorem addTempInstruction_odWF (st : ODState) (inst : Nat) (rawBytes : List Nat)
    (h : odWF st) (hne : rawBytes ≠ []) :
    odWF (addTempInstruction st inst rawBytes) := by
  have h' : odWF { st with TempInstKeys := st.TempInstKeys ++ [⟨rawBytes, st.TempInstValues.length⟩], TempInstValues := st.TempInstValues ++ [inst] } := by
    constructor
    · exact h.1
    · intro k hk
      rcases List.mem_append.mp hk with h1 | h1
      · exact h.2 k h1
      · rw [List.mem_singleton] at h1
        subst h1
        exact hne
  rw [addTempInstruction]
  dsimp only
  split
  · exact uniqueTempInstructions_odWF _ h'
  · exact h'

/-- A cache hit returns a stored entry's instruction and raw-byte length. -/
theorem findCachedInstruction_some_mem (st : ODState) (r : Region)
    (addr inst sz : Nat) (h : findCachedInstruction st r addr = some (inst, sz)) :
    ∃ e ∈ st.CachedInsts, e.Inst = inst ∧ e.RawBytes.length = sz := by
  rw [findCachedInstruction] at h
  split at h
  · cases h
  · split at h
    · cases h
    · rename_i e heq
      split at h
      · rw [Option.some_inj, Prod.mk.injEq] at h
        exact ⟨e, getMem heq, h.1, h.2⟩
      · cases h

theorem getByteRange_length (r : Region) (addr sz : Nat)
    (h1 : r.Base ≤ addr) (h2 : addr + sz ≤ r.Base + r.Bytes.length) :
    (getByteRange r addr sz).length = sz := by
  rw [getByteRange, List.length_take, List.length_drop]
  omega

theorem getByteRange_ne_nil (r : Region) (addr sz : Nat) (hsz : 1 ≤ sz)
    (h1 : r.Base ≤ addr) (h2 : addr + sz ≤ r.Base + r.Bytes.length) :
    getByteRange r addr sz ≠ [] := by
  intro hn
  have hl := getByteRange_length r addr sz h1 h2
  rw [hn] at hl
  simp only [List.length_nil] at hl
  omega

/-- Appending an instruction to a tracked well-formed atom keeps both the
module invariant and the tracking invariant. -/
theorem addInst_step (m : MCModule) (tid inst sz : Nat) (t : MCTextAtomData)
    (hg : m.Atoms.get? tid = some (.text t)) (hm : moduleTextWFb m = true)
    (hwf : textAtomWFb t = true) (hnext : t.NextInstAddress = t.AtomEnd + 1)
    (hsz : 1 ≤ sz) :
    moduleTextWFb (addInst m tid inst sz) = true ∧
    ∃ t', (addInst m tid inst sz).Atoms.get? tid = some (.text t') ∧
      textAtomWFb t' = true ∧ t'.NextInstAddress = t.NextInstAddress + sz ∧
      t'.NextInstAddress = t'.AtomEnd + 1 := by
  obtain ⟨hwf', hnext'⟩ := addInstT_build t inst sz (Or.inr ⟨hwf, hnext⟩) hsz
  rw [addInst_eq m tid inst sz t hg]
  refine ⟨?_, ?_⟩
  · exact moduleTextWFb_set hm tid (fun t' ht => by cases ht; exact hwf')
  · exact ⟨_, get?_set_self _ _ _ _ hg, hwf', rfl, hnext'⟩

/-- The fresh-atom step of the linear disassembly loop: create plus first
instruction. -/
theorem createText_addInst_step (m : MCModule) (a inst sz : Nat)
    (hm : moduleTextWFb m = true) (hsz : 1 ≤ sz) :
    moduleTextWFb (addInst (createTextAtom m a a).1 (createTextAtom m a a).2 inst sz)
      = true ∧
    ∃ t', (addInst (createTextAtom m a a).1 (createTextAtom m a a).2 inst sz).Atoms.get?
        (createTextAtom m a a).2 = some (.text t') ∧
      textAtomWFb t' = true ∧ t'.NextInstAddress = a + sz ∧
      t'.NextInstAddress = t'.AtomEnd + 1 := by
  obtain ⟨hwf', hnext'⟩ :=
    addInstT_build ⟨a, a, a, "", []⟩ inst sz (Or.inl ⟨rfl, rfl, rfl⟩) hsz
  rw [createText_addInst_eq]
  refine ⟨?_, ?_⟩
  · exact moduleTextWFb_append hm (fun t' ht => by cases ht; exact hwf')
  · exact ⟨_, List.get?_concat_length m.Atoms _, (by exact hwf'), rfl, hnext'⟩

/-- `createTextAtom` + `setAtomName` + `addInst`, as `buildSectionAtoms`
opens a text atom. -/
theorem createText_setName_addInst_eq (m : MCModule) (a inst sz : Nat) (n : String) :
    addInst (setAtomName (createTextAtom m a a).1 (createTextAtom m a a).2 n)
        (createTextAtom m a a).2 inst sz =
      { m with Atoms := m.Atoms ++
          [.text ⟨a, (if a < a + sz - 1 then a + sz - 1 else a), a + sz, n,
                  [⟨inst, a, sz⟩]⟩] } := by
  dsimp only [createTextAtom]
  have h0 : setAtomName { m with Atoms := m.Atoms ++ [MCAtom.text ⟨a, a, a, "", []⟩] }
      m.Atoms.length n =
      { m with Atoms := m.Atoms ++ [MCAtom.text ⟨a, a, a, n, []⟩] } := by
    unfold setAtomName
    dsimp only
    rw [List.get?_concat_length]
    dsimp only
    rw [set_concat_self]
  rw [h0, addInst_eq _ m.Atoms.length inst sz ⟨a, a, a, n, []⟩
    (List.get?_concat_length m.Atoms _)]
  dsimp only
  rw [set_concat_self, List.nil_append]

theorem createText_setName_addInst_step (m : MCModule) (a inst sz : Nat) (n : String)
    (hm : moduleTextWFb m = true) (hsz : 1 ≤ sz) :
    moduleTextWFb (addInst (setAtomName (createTextAtom m a a).1
        (createTextAtom m a a).2 n) (createTextAtom m a a).2 inst sz) = true ∧
    ∃ t', (addInst (setAtomName (createTextAtom m a a).1 (createTextAtom m a a).2 n)
        (createTextAtom m a a).2 inst sz).Atoms.get? (createTextAtom m a a).2 =
        some (.text t') ∧
      textAtomWFb t' = true ∧ t'.NextInstAddress = a + sz ∧
      t'.NextInstAddress = t'.AtomEnd + 1 := by
  obtain ⟨hwf', hnext'⟩ :=
    addInstT_build ⟨a, a, a, n, []⟩ inst sz (Or.inl ⟨rfl, rfl, rfl⟩) hsz
  rw [createText_setName_addInst_eq]
  refine ⟨?_, ?_⟩
  · exact moduleTextWFb_append hm (fun t' ht => by cases ht; exact hwf')
  · exact ⟨_, List.get?_concat_length m.Atoms _, (by exact hwf'), rfl, hnext'⟩

/-- `createDataAtom` + `setAtomName`, as `buildSectionAtoms` opens a
data-section atom. -/
theorem createData_setName_eq (m : MCModule) (b e : Nat) (n : String) :
    setAtomName (createDataAtom m b e).1 (createDataAtom m b e).2 n =
      { m with Atoms := m.Atoms ++ [.data ⟨b, e, n, []⟩] } := by
  dsimp only [createDataAtom]
  unfold setAtomName
  dsimp only
  rw [List.get?_concat_length]
  dsimp only
  rw [set_concat_self]


/-- Unfolding `disasmLoop` at fuel 0. -/
theorem disasmLoop_zero (env : Env) (region : Region) (endAddr : Nat)
    (od : ODState) (m : MCModule) (addr : Nat) (taId : Option Nat) (ct : List Nat) :
    disasmLoop env region endAddr 0 od m addr taId ct =
      if addr < endAddr then none else some (m, od, taId, ct, false) := rfl

/-- Unfolding `disasmLoop` at positive fuel. -/
theorem disasmLoop_succ (env : Env) (region : Region) (endAddr fuel : Nat)
    (od : ODState) (m : MCModule) (addr : Nat) (taId : Option Nat) (ct : List Nat) :
    disasmLoop env region endAddr (fuel + 1) od m addr taId ct =
    (if addr < endAddr then
      let afterAppend := fun (od : ODState) (m : MCModule) (taId : Option Nat)
          (inst sz : Nat) (ct : List Nat) =>
        let ct := match env.evaluateBranch inst addr sz with
          | some target => if env.isCall inst then ct ++ [target] else ct
          | none => ct
        if env.isTerminator inst then
          some (m, od, taId, ct, false)
        else
          disasmLoop env region endAddr fuel od m (addr + sz) taId ct
      match findCachedInstruction od region addr with
      | some (inst, sz) =>
        let (m, tid) := match taId with
          | some tid => (m, tid)
          | none => createTextAtom m addr addr
        let m := addInst m tid inst sz
        let od := { od with Uniqued := od.Uniqued + 1 }
        afterAppend od m (some tid) inst sz ct
      | none =>
        match env.getInstruction region addr with
        | .ok inst sz =>
          let od := { od with Translated := od.Translated + 1 }
          let (m, tid) := match taId with
            | some tid => (m, tid)
            | none => createTextAtom m addr addr
          let m := addInst m tid inst sz
          let od := addTempInstruction od inst (getByteRange region addr sz)
          afterAppend od m (some tid) inst sz ct
        | .fail _ => some (m, od, taId, ct, true)
    else some (m, od, taId, ct, false)) := rfl

/-- The linear disassembly loop preserves the module text invariant and
the cache invariant, given a decoder meeting its contract. -/
theorem disasmLoop_wf (env : Env) (region : Region) (endAddr : Nat)
    (hdis : DisWF env) :
    ∀ (fuel : Nat) (od : ODState) (m : MCModule) (addr : Nat)
      (taId : Option Nat) (ct : List Nat)
      (res : MCModule × ODState × Option Nat × List Nat × Bool),
    disasmLoop env region endAddr fuel od m addr taId ct = some res →
    moduleTextWFb m = true → odWF od →
    (∀ tid, taId = some tid → ∃ t, m.Atoms.get? tid = some (.text t) ∧
      textAtomWFb t = true ∧ t.NextInstAddress = addr ∧
      t.NextInstAddress = t.AtomEnd + 1) →
    moduleTextWFb res.1 = true ∧ odWF res.2.1
  | 0, od, m, addr, taId, ct, res => by
    intro hres hm hod _
    rw [disasmLoop_zero] at hres
    split at hres
    · cases hres
    · rw [Option.some_inj] at hres
      subst hres
      exact ⟨hm, hod⟩
  | fuel + 1, od, m, addr, taId, ct, res => by
    intro hres hm hod hta
    rw [disasmLoop_succ] at hres
    by_cases hlt : addr < endAddr
    · rw [if_pos hlt] at hres
      dsimp only at hres
      cases hfc : findCachedInstruction od region addr with
      | some p =>
        rw [hfc] at hres
        obtain ⟨inst, sz⟩ := p
        obtain ⟨e, hem, heI, heL⟩ :=
          findCachedInstruction_some_mem od region addr inst sz hfc
        have hsz : 1 ≤ sz := by
          rw [← heL]
          exact List.length_pos.mpr (hod.1 e hem)
        cases taId with
        | none =>
          dsimp only at hres
          obtain ⟨hm1, t', hg', hwf', hN', hNE'⟩ :=
            createText_addInst_step m addr inst sz hm hsz
          split at hres
          · rw [Option.some_inj] at hres
            subst hres
            exact ⟨hm1, hod⟩
          · exact disasmLoop_wf env region endAddr hdis fuel _ _ _ _ _ _ hres hm1 hod
              (fun tid0 he => by
                rw [Option.some_inj] at he
                subst he
                exact ⟨t', hg', hwf', hN', hNE'⟩)
        | some tid =>
          dsimp only at hres
          obtain ⟨t, hg, hwf, hNt, hNE⟩ := hta tid rfl
          obtain ⟨hm1, t', hg', hwf', hN', hNE'⟩ :=
            addInst_step m tid inst sz t hg hm hwf hNE hsz
          split at hres
          · rw [Option.some_inj] at hres
            subst hres
            exact ⟨hm1, hod⟩
          · exact disasmLoop_wf env region endAddr hdis fuel _ _ _ _ _ _ hres hm1 hod
              (fun tid0 he => by
                rw [Option.some_inj] at he
                subst he
                exact ⟨t', hg', hwf', (by rw [hN', hNt]), hNE'⟩)
      | none =>
        rw [hfc] at hres
        dsimp only at hres
        cases hgi : env.getInstruction region addr with
        | fail sz0 =>
          rw [hgi] at hres
          dsimp only at hres
          rw [Option.some_inj] at hres
          subst hres
          exact ⟨hm, hod⟩
        | ok inst sz =>
          rw [hgi] at hres
          dsimp only at hres
          obtain ⟨hsz, hb1, hb2⟩ := hdis region addr inst sz hgi
          have hod2 : odWF (addTempInstruction { od with Translated := od.Translated + 1 }
              inst (getByteRange region addr sz)) :=
            addTempInstruction_odWF _ inst _ hod
              (getByteRange_ne_nil region addr sz hsz hb1 hb2)
          cases taId with
          | none =>
            dsimp only at hres
            obtain ⟨hm1, t', hg', hwf', hN', hNE'⟩ :=
              createText_addInst_step m addr inst sz hm hsz
            split at hres
            · rw [Option.some_inj] at hres
              subst hres
              exact ⟨hm1, hod2⟩
            · exact disasmLoop_wf env region endAddr hdis fuel _ _ _ _ _ _ hres hm1 hod2
                (fun tid0 he => by
                  rw [Option.some_inj] at he
                  subst he
                  exact ⟨t', hg', hwf', hN', hNE'⟩)
          | some tid =>
            dsimp only at hres
            obtain ⟨t, hg, hwf, hNt, hNE⟩ := hta tid rfl
            obtain ⟨hm1, t', hg', hwf', hN', hNE'⟩ :=
              addInst_step m tid inst sz t hg hm hwf hNE hsz
            split at hres
            · rw [Option.some_inj] at hres
              subst hres
              exact ⟨hm1, hod2⟩
            · exact disasmLoop_wf env region endAddr hdis fuel _ _ _ _ _ _ hres hm1 hod2
                (fun tid0 he => by
                  rw [Option.some_inj] at he
                  subst he
                  exact ⟨t', hg', hwf', (by rw [hN', hNt]), hNE'⟩)
    · rw [if_neg hlt, Option.some_inj] at hres
      subst hres
      exact ⟨hm, hod⟩


theorem moduleTextWFb_congr {m1 m2 : MCModule} (h : m1.Atoms = m2.Atoms) :
    moduleTextWFb m1 = moduleTextWFb m2 := by
  rw [moduleTextWFb, moduleTextWFb, h]

theorem moduleCreateFunction_atoms (m : MCModule) (n : String) :
    (moduleCreateFunction m n).1.Atoms = m.Atoms := rfl

theorem addEdge_atoms (m : MCModule) (fidx bidx sidx : Nat) :
    (addEdge m fidx bidx sidx).Atoms = m.Atoms := by
  unfold addEdge
  split <;> rfl

/-- Phase 2 only touches `Functions`. -/
theorem phase2Loop_atoms (fidx : Nat) : ∀ (m : MCModule)
    (bbinfos : List (Nat × BBInfo)) (ws : List Nat) (m2 : MCModule)
    (b2 : List (Nat × BBInfo)),
    phase2Loop fidx m bbinfos ws = some (m2, b2) → m2.Atoms = m.Atoms
  | m, bbinfos, [], m2, b2, h => by
    rw [phase2Loop, Option.some_inj, Prod.mk.injEq] at h
    rw [← h.1]
  | m, bbinfos, waddr :: rest, m2, b2, h => by
    rw [phase2Loop] at h
    dsimp only at h
    split at h
    · cases h
    · split at h
      · cases h
      · split at h
        · exact phase2Loop_atoms fidx _ _ _ _ _ h
        · have h2 := phase2Loop_atoms fidx _ _ _ _ _ h
          rw [h2]

/-- Phase 3 only touches `Functions`. -/
theorem phase3Loop_atoms (fidx : Nat) (bbinfos : List (Nat × BBInfo)) :
    ∀ (m : MCModule) (ws : List Nat) (m3 : MCModule),
    phase3Loop fidx bbinfos m ws = some m3 → m3.Atoms = m.Atoms
  | m, [], m3, h => by
    rw [phase3Loop, Option.some_inj] at h
    rw [← h]
  | m, waddr :: rest, m3, h => by
    rw [phase3Loop] at h
    dsimp only at h
    split at h
    · cases h
    · rename_i bidx hbb
      split at h
      · cases h
      · rename_i m1 hstep
        have h1 : ∀ (l : List Nat) (acc : Option MCModule) (mb : MCModule),
            l.foldl (fun acc a => match acc with
              | none => none
              | some m => match ((bbLookup bbinfos a).getD default).BB with
                | none => none
                | some sidx => some (addEdge m fidx bidx sidx)) acc = some mb →
            ∃ ma, acc = some ma ∧ mb.Atoms = ma.Atoms := by
          intro l
          induction l with
          | nil =>
            intro acc mb hh
            rw [List.foldl_nil] at hh
            exact ⟨mb, hh, rfl⟩
          | cons a l ih =>
            intro acc mb hh
            rw [List.foldl_cons] at hh
            obtain ⟨ma', hstep', hatoms'⟩ := ih _ _ hh
            cases acc with
            | none =>
              dsimp only at hstep'
              cases hstep'
            | some ma =>
              dsimp only at hstep'
              split at hstep'
              · cases hstep'
              · rw [Option.some_inj] at hstep'
                subst hstep'
                exact ⟨ma, rfl, hatoms'.trans (addEdge_atoms _ _ _ _)⟩
        obtain ⟨ma, hma, hatoms⟩ := h1 _ _ _ hstep
        rw [Option.some_inj] at hma
        have h2 := phase3Loop_atoms fidx bbinfos _ _ _ h
        rw [h2, hatoms, ← hma]

/-- The atom-discovery phase preserves the module and cache invariants. -/
theorem atomLookupPhase_wf (env : Env) (od : ODState) (m : MCModule)
    (bbinfos : List (Nat × BBInfo)) (addr : Nat) (ct : List Nat)
    (m' : MCModule) (od' : ODState) (b' : List (Nat × BBInfo)) (ct' : List Nat)
    (failed : Bool)
    (h : atomLookupPhase env od m bbinfos addr ct = some (m', od', b', ct', failed))
    (hdis : DisWF env) (hm : moduleTextWFb m = true) (hod : odWF od) :
    moduleTextWFb m' = true ∧ odWF od' := by
  rw [atomLookupPhase] at h
  dsimp only at h
  split at h
  · cases h
  · split at h
    · rename_i aid haid
      split at h
      · rename_i t hget
        split at h
        · split at h
          · cases h
          · rename_i p m1 newAid hsplit
            have hm1 := splitTextAtom_textWF m aid addr m1 newAid hsplit hm
            split at h
            · split at h
              · rw [Option.some_inj, Prod.mk.injEq] at h
                obtain ⟨h1, h2⟩ := h
                rw [Prod.mk.injEq] at h2
                subst h1
                rw [← h2.1]
                exact ⟨hm1, hod⟩
              · rw [Option.some_inj, Prod.mk.injEq] at h
                obtain ⟨h1, h2⟩ := h
                rw [Prod.mk.injEq] at h2
                subst h1
                rw [← h2.1]
                exact ⟨hm1, hod⟩
            · rw [Option.some_inj, Prod.mk.injEq] at h
              obtain ⟨h1, h2⟩ := h
              rw [Prod.mk.injEq] at h2
              subst h1
              rw [← h2.1]
              exact ⟨hm1, hod⟩
        · rw [Option.some_inj, Prod.mk.injEq] at h
          obtain ⟨h1, h2⟩ := h
          rw [Prod.mk.injEq] at h2
          subst h1
          rw [← h2.1]
          exact ⟨hm, hod⟩
      · cases h
    · split at h
      · cases h
      · rename_i region hreg
        split at h
        · cases h
        · rename_i endAddr hend
          split at h
          · cases h
          · rename_i p m1 od1 taId1 ct1 failed1 hloop
            rw [Option.some_inj, Prod.mk.injEq] at h
            obtain ⟨h1, h2⟩ := h
            rw [Prod.mk.injEq] at h2
            subst h1
            have hw := disasmLoop_wf env region endAddr hdis (endAddr - addr)
              od m addr none ct _ hloop hm hod (fun tid he => by cases he)
            exact ⟨hw.1, by rw [← h2.1]; exact hw.2⟩

/-- One full worklist iteration preserves the invariants. -/
theorem processAddr_wf (env : Env) (st : GBState) (addr : Nat) (st' : GBState)
    (h : processAddr env st addr = some st') (hdis : DisWF env)
    (hm : moduleTextWFb st.module = true) (hod : odWF st.od) :
    moduleTextWFb st'.module = true ∧ odWF st'.od := by
  rw [processAddr] at h
  split at h
  · cases h
  · rename_i p m1 od1 bbinfos1 ct1 failed1 hlook
    split at h
    · cases h
    · rw [Option.some_inj] at h
      subst h
      exact atomLookupPhase_wf env st.od st.module st.bbinfos addr st.callTargets
        m1 od1 bbinfos1 ct1 failed1 hlook hdis hm hod

/-- Unfolding `phase1Loop` at fuel 0. -/
theorem phase1Loop_zero (env : Env) (st : GBState) (wi : Nat) :
    phase1Loop env 0 st wi =
      if wi < st.worklist.length then none else some st := rfl

/-- Unfolding `phase1Loop` at positive fuel. -/
theorem phase1Loop_succ (env : Env) (fuel : Nat) (st : GBState) (wi : Nat) :
    phase1Loop env (fuel + 1) st wi =
      if wi < st.worklist.length then
        match processAddr env st (st.worklist.getD wi 0) with
        | none => none
        | some st' => phase1Loop env fuel st' (wi + 1)
      else some st := rfl

theorem phase1Loop_wf (env : Env) (hdis : DisWF env) :
    ∀ (fuel : Nat) (st : GBState) (wi : Nat) (st' : GBState),
    phase1Loop env fuel st wi = some st' →
    moduleTextWFb st.module = true → odWF st.od →
    moduleTextWFb st'.module = true ∧ odWF st'.od
  | 0, st, wi, st', h => by
    intro hm hod
    rw [phase1Loop_zero] at h
    split at h
    · cases h
    · rw [Option.some_inj] at h
      subst h
      exact ⟨hm, hod⟩
  | fuel + 1, st, wi, st', h => by
    intro hm hod
    rw [phase1Loop_succ] at h
    split at h
    · split at h
      · cases h
      · rename_i st1 hstep
        have hw := processAddr_wf env st _ st1 hstep hdis hm hod
        exact phase1Loop_wf env hdis fuel st1 (wi + 1) st' h hw.1 hw.2
    · rw [Option.some_inj] at h
      subst h
      exact ⟨hm, hod⟩

/-- `getBBAt` preserves the module and cache invariants. -/
theorem getBBAt_wf (env : Env) (fuel : Nat) (od : ODState) (m : MCModule)
    (fidx bbBeginAddr : Nat) (ct tct : List Nat) (m' : MCModule) (od' : ODState)
    (ct' tct' : List Nat) (bidx : Nat)
    (h : getBBAt env fuel od m fidx bbBeginAddr ct tct =
      some (m', od', ct', tct', bidx))
    (hdis : DisWF env) (hm : moduleTextWFb m = true) (hod : odWF od) :
    moduleTextWFb m' = true ∧ odWF od' := by
  rw [getBBAt] at h
  split at h
  · cases h
  · rename_i st hp1
    split at h
    · cases h
    · rename_i p m2 b2 hp2
      split at h
      · cases h
      · rename_i m3 hp3
        split at h
        · cases h
        · rw [Option.some_inj, Prod.mk.injEq] at h
          obtain ⟨h1, h2⟩ := h
          rw [Prod.mk.injEq] at h2
          subst h1
          have hw := phase1Loop_wf env hdis fuel ⟨m, od, [], [bbBeginAddr], ct, tct⟩
            0 st hp1 hm hod
          have ha2 := phase2Loop_atoms fidx st.module st.bbinfos st.worklist m2 b2 hp2
          have ha3 := phase3Loop_atoms fidx b2 m2 st.worklist m3 hp3
          constructor
          · rw [moduleTextWFb_congr (ha3.trans ha2)]
            exact hw.1
          · rw [← h2.1]
            exact hw.2

/-- `createFunction` preserves the module and cache invariants. -/
theorem createFunction_wf (env : Env) (fuel : Nat) (od : ODState) (m : MCModule)
    (beginAddr : Nat) (ct tct : List Nat) (m' : MCModule) (od' : ODState)
    (ct' tct' : List Nat) (fidx : Nat)
    (h : createFunction env fuel od m beginAddr ct tct =
      some (m', od', ct', tct', fidx))
    (hdis : DisWF env) (hm : moduleTextWFb m = true) (hod : odWF od) :
    moduleTextWFb m' = true ∧ odWF od' := by
  rw [createFunction] at h
  dsimp only at h
  split at h
  · rw [Option.some_inj, Prod.mk.injEq] at h
    obtain ⟨h1, h2⟩ := h
    rw [Prod.mk.injEq] at h2
    subst h1
    refine ⟨?_, by rw [← h2.1]; exact hod⟩
    rw [moduleTextWFb_congr (moduleCreateFunction_atoms m _)]
    exact hm
  · split at h
    · rw [Option.some_inj, Prod.mk.injEq] at h
      obtain ⟨h1, h2⟩ := h
      rw [Prod.mk.injEq] at h2
      subst h1
      exact ⟨hm, by rw [← h2.1]; exact hod⟩
    · split at h
      · cases h
      · rename_i p m2 od2 ct2 tct2 bidx hbb
        rw [Option.some_inj, Prod.mk.injEq] at h
        obtain ⟨h1, h2⟩ := h
        rw [Prod.mk.injEq] at h2
        subst h1
        have hm1 : moduleTextWFb (moduleCreateFunction m "").1 = true := by
          rw [moduleTextWFb_congr (moduleCreateFunction_atoms m _)]
          exact hm
        have hw := getBBAt_wf env fuel od (moduleCreateFunction m "").1
          (moduleCreateFunction m "").2 beginAddr ct tct m2 od2 ct2 tct2 bidx
          hbb hdis hm1 hod
        exact ⟨hw.1, by rw [← h2.1]; exact hw.2⟩

/-- The symbol sweep of `buildCFG` preserves the invariants. -/
theorem buildCFGSweep_wf (env : Env) (fuel : Nat) (od : ODState) (m : MCModule)
    (m' : MCModule) (od' : ODState) (ct' tct' : List Nat)
    (h : buildCFGSweep env fuel od m = some (m', od', ct', tct'))
    (hdis : DisWF env) (hm : moduleTextWFb m = true) (hod : odWF od) :
    moduleTextWFb m' = true ∧ odWF od' := by
  rw [buildCFGSweep] at h
  have hrec := List.foldlRecOn env.symbols
    (fun acc sym => match acc with
      | none => none
      | some (m, od, ct, tct) =>
        match sym.IsFunctionType with
        | none => some (m, od, ct, tct)
        | some isFn =>
          if !isFn then some (m, od, ct, tct)
          else
            match sym.Address with
            | none => some (m, od, ct, tct)
            | some a =>
              let a := getEffectiveLoadAddr a
              match getRegionFor od.SectionRegions a with
              | none => some (m, od, ct, tct)
              | some _ =>
                match createFunction env fuel od m a ct tct with
                | none => none
                | some (m', od', ct', tct', _) => some (m', od', ct', tct'))
    (motive := fun acc => ∀ m1 od1 ct1 tct1, acc = some (m1, od1, ct1, tct1) →
      moduleTextWFb m1 = true ∧ odWF od1)
    (some (m, od, [], []))
    (by
      intro m1 od1 ct1 tct1 he
      rw [Option.some_inj, Prod.mk.injEq] at he
      obtain ⟨he1, he2⟩ := he
      rw [Prod.mk.injEq] at he2
      subst he1
      exact ⟨hm, by rw [← he2.1]; exact hod⟩)
    (by
      intro acc hacc sym _
      intro m1 od1 ct1 tct1 he
      dsimp only at he
      split at he
      · cases he
      · rename_i q m0 od0 ct0 tct0
        have hq := hacc m0 od0 ct0 tct0 rfl
        split at he
        · rw [Option.some_inj, Prod.mk.injEq] at he
          obtain ⟨he1, he2⟩ := he
          rw [Prod.mk.injEq] at he2
          subst he1
          exact ⟨hq.1, by rw [← he2.1]; exact hq.2⟩
        · split at he
          · rw [Option.some_inj, Prod.mk.injEq] at he
            obtain ⟨he1, he2⟩ := he
            rw [Prod.mk.injEq] at he2
            subst he1
            exact ⟨hq.1, by rw [← he2.1]; exact hq.2⟩
          · split at he
            · rw [Option.some_inj, Prod.mk.injEq] at he
              obtain ⟨he1, he2⟩ := he
              rw [Prod.mk.injEq] at he2
              subst he1
              exact ⟨hq.1, by rw [← he2.1]; exact hq.2⟩
            · rename_i a
              split at he
              · rw [Option.some_inj, Prod.mk.injEq] at he
                obtain ⟨he1, he2⟩ := he
                rw [Prod.mk.injEq] at he2
                subst he1
                exact ⟨hq.1, by rw [← he2.1]; exact hq.2⟩
              · split at he
                · cases he
                · rename_i p m3 od3 ct3 tct3 fidx3 hcf
                  rw [Option.some_inj, Prod.mk.injEq] at he
                  obtain ⟨he1, he2⟩ := he
                  rw [Prod.mk.injEq] at he2
                  subst he1
                  have hw := createFunction_wf env fuel od0 m0 _ ct0 tct0
                    m3 od3 ct3 tct3 fidx3 hcf hdis hq.1 hq.2
                  exact ⟨hw.1, by rw [← he2.1]; exact hw.2⟩)
  exact hrec m' od' ct' tct' h

/-- The fixpoint loop of `buildCFG` returns immediately on an empty
`NewCallTargets`. -/
theorem buildCFGLoop_nil (env : Env) (gbFuel loopFuel : Nat) (m : MCModule)
    (od : ODState) (ct tct : List Nat) :
    buildCFGLoop env gbFuel loopFuel m od ct [] tct = some m := by
  cases loopFuel <;> rfl

/-- `buildCFG` preserves the module invariant. -/
theorem buildCFG_wf (env : Env) (gbFuel loopFuel : Nat) (od : ODState)
    (m m' : MCModule) (h : buildCFG env gbFuel loopFuel od m = some m')
    (hdis : DisWF env) (hm : moduleTextWFb m = true) (hod : odWF od) :
    moduleTextWFb m' = true := by
  rw [buildCFG] at h
  split at h
  · cases h
  · rename_i p m1 od1 ct tct hsweep
    dsimp only at h
    rw [buildCFGLoop_nil, Option.some_inj] at h
    subst h
    exact (buildCFGSweep_wf env gbFuel od m m1 od1 ct tct hsweep hdis hm hod).1


/-- Unfolding `sectionSweepStep`. -/
theorem sectionSweepStep_eq (env : Env) (m : MCModule) (secName : String)
    (startAddr : Nat) (contents : List Nat) (index : Nat)
    (textId invalidId : Option Nat) :
    sectionSweepStep env m secName startAddr contents index textId invalidId =
    (match env.getInstruction ⟨startAddr, contents⟩ (startAddr + index) with
     | .ok inst sz =>
       let (m, tid) := match textId with
         | some tid => (m, tid)
         | none =>
           let (m, tid) := createTextAtom m (startAddr + index) (startAddr + index)
           (setAtomName m tid secName, tid)
       some (addInst m tid inst sz, some tid, none, index + sz)
     | .fail sz =>
       if sz = 0 then none
       else
         let (m, did) := match invalidId with
           | some did => (m, did)
           | none => createDataAtom m (startAddr + index) (startAddr + index + sz - 1)
         let m := (List.range sz).foldl
           (fun m i => addData m did (contents.getD (index + i) 0)) m
         some (m, none, some did, index + sz)) := rfl

/-- A fold of `addData` over `List.range`, as a fold over the byte list. -/
theorem addData_foldRange_map (m : MCModule) (aid : Nat) (g : Nat → Nat) (k : Nat) :
    (List.range k).foldl (fun m i => addData m aid (g i)) m =
      ((List.range k).map g).foldl (fun m b => addData m aid b) m := by
  rw [List.foldl_map]

/-- One sweep step keeps all text atoms well-formed and tracks the open
text atom. -/
theorem sectionSweepStep_textWF (env : Env) (m : MCModule) (secName : String)
    (startAddr : Nat) (contents : List Nat) (index : Nat)
    (textId invalidId : Option Nat) (m' : MCModule) (tid' did' : Option Nat)
    (index' : Nat)
    (h : sectionSweepStep env m secName startAddr contents index textId invalidId
      = some (m', tid', did', index'))
    (hdis : DisWF env) (hm : moduleTextWFb m = true)
    (hta : ∀ tid, textId = some tid → ∃ t, m.Atoms.get? tid = some (.text t) ∧
      textAtomWFb t = true ∧ t.NextInstAddress = startAddr + index ∧
      t.NextInstAddress = t.AtomEnd + 1) :
    moduleTextWFb m' = true ∧
    (∀ tid, tid' = some tid → ∃ t, m'.Atoms.get? tid = some (.text t) ∧
      textAtomWFb t = true ∧ t.NextInstAddress = startAddr + index' ∧
      t.NextInstAddress = t.AtomEnd + 1) := by
  rw [sectionSweepStep_eq] at h
  split at h
  · rename_i inst sz hgi
    have hsz : 1 ≤ sz := (hdis _ _ _ _ hgi).1
    cases textId with
    | some tid0 =>
      dsimp only at h
      rw [Option.some_inj, Prod.mk.injEq] at h
      obtain ⟨h1, h2⟩ := h
      rw [Prod.mk.injEq] at h2
      obtain ⟨h2a, h2b⟩ := h2
      rw [Prod.mk.injEq] at h2b
      obtain ⟨h2c, h2d⟩ := h2b
      obtain ⟨t, hg, hwf, hN, hNE⟩ := hta tid0 rfl
      obtain ⟨hm1, t', hg', hwf', hN', hNE'⟩ :=
        addInst_step m tid0 inst sz t hg hm hwf hNE hsz
      subst h1
      subst h2d
      refine ⟨hm1, ?_⟩
      intro tid ht
      rw [← h2a, Option.some_inj] at ht
      subst ht
      refine ⟨t', hg', hwf', ?_, hNE'⟩
      rw [hN', hN]
      omega
    | none =>
      dsimp only [createTextAtom] at h
      rw [Option.some_inj, Prod.mk.injEq] at h
      obtain ⟨h1, h2⟩ := h
      rw [Prod.mk.injEq] at h2
      obtain ⟨h2a, h2b⟩ := h2
      rw [Prod.mk.injEq] at h2b
      obtain ⟨h2c, h2d⟩ := h2b
      obtain ⟨hm1, t', hg', hwf', hN', hNE'⟩ :=
        createText_setName_addInst_step m (startAddr + index) inst sz secName hm hsz
      subst h1
      subst h2d
      refine ⟨hm1, ?_⟩
      intro tid ht
      rw [← h2a, Option.some_inj] at ht
      subst ht
      refine ⟨t', hg', hwf', ?_, hNE'⟩
      rw [hN']
      omega
  · rename_i sz hgi
    split at h
    · cases h
    · rename_i hsz0
      cases invalidId with
      | some did0 =>
        dsimp only at h
        rw [Option.some_inj, Prod.mk.injEq] at h
        obtain ⟨h1, h2⟩ := h
        rw [Prod.mk.injEq] at h2
        obtain ⟨h2a, h2b⟩ := h2
        subst h1
        refine ⟨?_, ?_⟩
        · exact addData_foldRange_textWF m did0 _ sz hm
        · intro tid ht
          rw [← h2a] at ht
          cases ht
      | none =>
        dsimp only [createDataAtom] at h
        rw [Option.some_inj, Prod.mk.injEq] at h
        obtain ⟨h1, h2⟩ := h
        rw [Prod.mk.injEq] at h2
        obtain ⟨h2a, h2b⟩ := h2
        subst h1
        refine ⟨?_, ?_⟩
        · exact addData_foldRange_textWF _ m.Atoms.length _ sz
            (createDataAtom_textWF m (startAddr + index) (startAddr + index + sz - 1) hm)
        · intro tid ht
          rw [← h2a] at ht
          cases ht

/-- One sweep step keeps all data atoms exactly filled and tracks the
open data atom.  No decoder contract is needed: skipped runs carry their
own positive advance size. -/
theorem sectionSweepStep_dataWF (env : Env) (m : MCModule) (secName : String)
    (startAddr : Nat) (contents : List Nat) (index : Nat)
    (textId invalidId : Option Nat) (m' : MCModule) (tid' did' : Option Nat)
    (index' : Nat)
    (h : sectionSweepStep env m secName startAddr contents index textId invalidId
      = some (m', tid', did', index'))
    (hm : moduleDataWFb m = true)
    (hda : ∀ did, invalidId = some did → ∃ d, m.Atoms.get? did = some (.data d) ∧
      dataAtomWFb d = true ∧ d.AtomEnd + 1 = startAddr + index) :
    moduleDataWFb m' = true ∧
    (∀ did, did' = some did → ∃ d, m'.Atoms.get? did = some (.data d) ∧
      dataAtomWFb d = true ∧ d.AtomEnd + 1 = startAddr + index') := by
  rw [sectionSweepStep_eq] at h
  split at h
  · rename_i inst sz hgi
    cases textId with
    | some tid0 =>
      dsimp only at h
      rw [Option.some_inj, Prod.mk.injEq] at h
      obtain ⟨h1, h2⟩ := h
      rw [Prod.mk.injEq] at h2
      obtain ⟨h2a, h2b⟩ := h2
      rw [Prod.mk.injEq] at h2b
      subst h1
      refine ⟨addInst_dataWF m tid0 inst sz hm, ?_⟩
      intro did ht
      rw [← h2b.1] at ht
      cases ht
    | none =>
      dsimp only [createTextAtom] at h
      rw [Option.some_inj, Prod.mk.injEq] at h
      obtain ⟨h1, h2⟩ := h
      rw [Prod.mk.injEq] at h2
      obtain ⟨h2a, h2b⟩ := h2
      rw [Prod.mk.injEq] at h2b
      subst h1
      refine ⟨?_, ?_⟩
      · exact addInst_dataWF _ _ inst sz (setAtomName_dataWF _ _ _
          (createTextAtom_dataWF m (startAddr + index) (startAddr + index) hm))
      · intro did ht
        rw [← h2b.1] at ht
        cases ht
  · rename_i sz hgi
    split at h
    · cases h
    · rename_i hsz0
      have hszp : 1 ≤ sz := Nat.one_le_iff_ne_zero.mpr hsz0
      have hlen : ((List.range sz).map (fun i => contents.getD (index + i) 0)).length
          = sz := by
        rw [List.length_map, List.length_range]
      cases invalidId with
      | some did0 =>
        dsimp only at h
        rw [addData_foldRange_map] at h
        obtain ⟨d, hg, hdwf, hend⟩ := hda did0 rfl
        obtain ⟨hfold, hwf2⟩ := addData_fold_extend
          ((List.range sz).map (fun i => contents.getD (index + i) 0))
          m did0 d hg hdwf
        rw [hlen] at hfold hwf2
        rw [hfold, Option.some_inj, Prod.mk.injEq] at h
        obtain ⟨h1, h2⟩ := h
        rw [Prod.mk.injEq] at h2
        obtain ⟨h2a, h2b⟩ := h2
        rw [Prod.mk.injEq] at h2b
        obtain ⟨h2c, h2d⟩ := h2b
        subst h1
        refine ⟨?_, ?_⟩
        · exact moduleDataWFb_set hm did0 (fun d' hd' => by cases hd'; exact hwf2)
        · intro did ht
          rw [← h2c, Option.some_inj] at ht
          subst ht
          refine ⟨_, get?_set_self _ _ _ _ hg, hwf2, ?_⟩
          dsimp only
          omega
      | none =>
        dsimp only [createDataAtom] at h
        rw [addData_foldRange_map] at h
        rw [addData_fold_fill ((List.range sz).map (fun i => contents.getD (index + i) 0))
          _ m.Atoms.length ⟨startAddr + index, startAddr + index + sz - 1, "", []⟩
          (List.get?_concat_length m.Atoms _)
          (by rw [hlen]; dsimp only; simp only [List.length_nil]; omega)] at h
        rw [Option.some_inj, Prod.mk.injEq] at h
        obtain ⟨h1, h2⟩ := h
        rw [Prod.mk.injEq] at h2
        obtain ⟨h2a, h2b⟩ := h2
        rw [Prod.mk.injEq] at h2b
        obtain ⟨h2c, h2d⟩ := h2b
        have hdwfNew : dataAtomWFb ⟨startAddr + index, startAddr + index + sz - 1, "",
            [] ++ (List.range sz).map (fun i => contents.getD (index + i) 0)⟩ = true := by
          rw [dataAtomWFb_iff]
          dsimp only
          rw [List.nil_append, hlen]
          omega
        rw [set_concat_self] at h1
        subst h1
        refine ⟨?_, ?_⟩
        · exact moduleDataWFb_append hm (fun d' hd' => by
            cases hd'
            rw [← List.nil_append ((List.range sz).map (fun i => contents.getD (index + i) 0))]
            exact hdwfNew)
        · intro did ht
          rw [← h2c, Option.some_inj] at ht
          subst ht
          refine ⟨_, List.get?_concat_length m.Atoms _, ?_, ?_⟩
          · rw [← List.nil_append ((List.range sz).map (fun i => contents.getD (index + i) 0))]
            exact hdwfNew
          · dsimp only
            omega


/-- Unfolding `sectionSweepLoop` at fuel 0. -/
theorem sectionSweepLoop_zero (env : Env) (secName : String)
    (startAddr secSize : Nat) (contents : List Nat) (m : MCModule)
    (index : Nat) (textId invalidId : Option Nat) :
    sectionSweepLoop env secName startAddr secSize contents 0 m index textId invalidId =
      if index < secSize then none else some m := rfl

/-- Unfolding `sectionSweepLoop` at positive fuel. -/
theorem sectionSweepLoop_succ (env : Env) (secName : String)
    (startAddr secSize : Nat) (contents : List Nat) (fuel : Nat) (m : MCModule)
    (index : Nat) (textId invalidId : Option Nat) :
    sectionSweepLoop env secName startAddr secSize contents (fuel + 1) m index
        textId invalidId =
      (if index < secSize then
        match sectionSweepStep env m secName startAddr contents index textId invalidId with
        | none => none
        | some (m', tid', did', index') =>
          sectionSweepLoop env secName startAddr secSize contents fuel m' index' tid' did'
      else some m) := rfl

theorem sectionSweepLoop_textWF (env : Env) (secName : String)
    (startAddr secSize : Nat) (contents : List Nat) (hdis : DisWF env) :
    ∀ (fuel : Nat) (m : MCModule) (index : Nat) (textId invalidId : Option Nat)
      (m' : MCModule),
    sectionSweepLoop env secName startAddr secSize contents fuel m index textId
      invalidId = some m' →
    moduleTextWFb m = true →
    (∀ tid, textId = some tid → ∃ t, m.Atoms.get? tid = some (.text t) ∧
      textAtomWFb t = true ∧ t.NextInstAddress = startAddr + index ∧
      t.NextInstAddress = t.AtomEnd + 1) →
    moduleTextWFb m' = true
  | 0, m, index, textId, invalidId, m' => by
    intro h hm _
    rw [sectionSweepLoop_zero] at h
    split at h
    · cases h
    · rw [Option.some_inj] at h
      subst h
      exact hm
  | fuel + 1, m, index, textId, invalidId, m' => by
    intro h hm hta
    rw [sectionSweepLoop_succ] at h
    split at h
    · split at h
      · cases h
      · rename_i p m1 tid1 did1 index1 hstep
        obtain ⟨hm1, hta1⟩ := sectionSweepStep_textWF env m secName startAddr
          contents index textId invalidId m1 tid1 did1 index1 hstep hdis hm hta
        exact sectionSweepLoop_textWF env secName startAddr secSize contents hdis
          fuel m1 index1 tid1 did1 m' h hm1 hta1
    · rw [Option.some_inj] at h
      subst h
      exact hm

theorem sectionSweepLoop_dataWF (env : Env) (secName : String)
    (startAddr secSize : Nat) (contents : List Nat) :
    ∀ (fuel : Nat) (m : MCModule) (index : Nat) (textId invalidId : Option Nat)
      (m' : MCModule),
    sectionSweepLoop env secName startAddr secSize contents fuel m index textId
      invalidId = some m' →
    moduleDataWFb m = true →
    (∀ did, invalidId = some did → ∃ d, m.Atoms.get? did = some (.data d) ∧
      dataAtomWFb d = true ∧ d.AtomEnd + 1 = startAddr + index) →
    moduleDataWFb m' = true
  | 0, m, index, textId, invalidId, m' => by
    intro h hm _
    rw [sectionSweepLoop_zero] at h
    split at h
    · cases h
    · rw [Option.some_inj] at h
      subst h
      exact hm
  | fuel + 1, m, index, textId, invalidId, m' => by
    intro h hm hda
    rw [sectionSweepLoop_succ] at h
    split at h
    · split at h
      · cases h
      · rename_i p m1 tid1 did1 index1 hstep
        obtain ⟨hm1, hda1⟩ := sectionSweepStep_dataWF env m secName startAddr
          contents index textId invalidId m1 tid1 did1 index1 hstep hm hda
        exact sectionSweepLoop_dataWF env secName startAddr secSize contents
          fuel m1 index1 tid1 did1 m' h hm1 hda1
    · rw [Option.some_inj] at h
      subst h
      exact hm

/-- Unfolding `buildSectionAtomsOne`. -/
theorem buildSectionAtomsOne_eq (env : Env) (m : MCModule) (sec : ObjSection) :
    buildSectionAtomsOne env m sec =
    (if !sec.IsData && !sec.IsText then some m
     else if sec.Address == UnknownAddressOrSize || sec.Size == UnknownAddressOrSize
       then some m
     else
       if (sec.Contents.getD []).length ≠ sec.Size ∨ sec.Size = 0 then some m
       else
         if sec.IsText then
           sectionSweepLoop env sec.Name (getEffectiveLoadAddr sec.Address) sec.Size
             (sec.Contents.getD []) sec.Size m 0 none none
         else
           let (m, did) := createDataAtom m (getEffectiveLoadAddr sec.Address)
             (getEffectiveLoadAddr sec.Address + sec.Size - 1)
           let m := setAtomName m did sec.Name
           some ((List.range sec.Size).foldl
             (fun m i => addData m did ((sec.Contents.getD []).getD i 0)) m)) := rfl

theorem buildSectionAtomsOne_textWF (env : Env) (m : MCModule) (sec : ObjSection)
    (m' : MCModule) (h : buildSectionAtomsOne env m sec = some m')
    (hdis : DisWF env) (hm : moduleTextWFb m = true) :
    moduleTextWFb m' = true := by
  rw [buildSectionAtomsOne_eq] at h
  split at h
  · rw [Option.some_inj] at h
    subst h
    exact hm
  · split at h
    · rw [Option.some_inj] at h
      subst h
      exact hm
    · split at h
      · rw [Option.some_inj] at h
        subst h
        exact hm
      · split at h
        · exact sectionSweepLoop_textWF env sec.Name (getEffectiveLoadAddr sec.Address)
            sec.Size (sec.Contents.getD []) hdis sec.Size m 0 none none m' h hm
            (fun tid ht => by cases ht)
        · dsimp only [createDataAtom] at h
          rw [Option.some_inj] at h
          subst h
          exact addData_foldRange_textWF _ m.Atoms.length _ sec.Size
            (setAtomName_textWF _ _ _ (createDataAtom_textWF m
              (getEffectiveLoadAddr sec.Address)
              (getEffectiveLoadAddr sec.Address + sec.Size - 1) hm))

theorem buildSectionAtomsOne_dataWF (env : Env) (m : MCModule) (sec : ObjSection)
    (m' : MCModule) (h : buildSectionAtomsOne env m sec = some m')
    (hm : moduleDataWFb m = true) :
    moduleDataWFb m' = true := by
  rw [buildSectionAtomsOne_eq] at h
  split at h
  · rw [Option.some_inj] at h
    subst h
    exact hm
  · split at h
    · rw [Option.some_inj] at h
      subst h
      exact hm
    · split at h
      · rw [Option.some_inj] at h
        subst h
        exact hm
      · rename_i hguard
        split at h
        · exact sectionSweepLoop_dataWF env sec.Name (getEffectiveLoadAddr sec.Address)
            sec.Size (sec.Contents.getD []) sec.Size m 0 none none m' h hm
            (fun did hd => by cases hd)
        · dsimp only [createDataAtom] at h
          rw [show setAtomName { m with Atoms := m.Atoms ++
                [.data ⟨getEffectiveLoadAddr sec.Address,
                 getEffectiveLoadAddr sec.Address + sec.Size - 1, "", []⟩] }
              m.Atoms.length sec.Name =
            { m with Atoms := m.Atoms ++ [.data ⟨getEffectiveLoadAddr sec.Address,
              getEffectiveLoadAddr sec.Address + sec.Size - 1, sec.Name, []⟩] } from
            createData_setName_eq m _ _ sec.Name] at h
          rw [addData_foldRange_map] at h
          have hlen : ((List.range sec.Size).map
              (fun i => (sec.Contents.getD []).getD i 0)).length = sec.Size := by
            rw [List.length_map, List.length_range]
          have hszp : 1 ≤ sec.Size := by omega
          rw [addData_fold_fill
            ((List.range sec.Size).map (fun i => (sec.Contents.getD []).getD i 0))
            _ m.Atoms.length
            ⟨getEffectiveLoadAddr sec.Address,
             getEffectiveLoadAddr sec.Address + sec.Size - 1, sec.Name, []⟩
            (List.get?_concat_length m.Atoms _)
            (by rw [hlen]; dsimp only; simp only [List.length_nil]; omega)] at h
          rw [Option.some_inj] at h
          rw [set_concat_self] at h
          subst h
          refine moduleDataWFb_append hm (fun d' hd' => ?_)
          cases hd'
          rw [dataAtomWFb_iff]
          dsimp only
          rw [List.nil_append, hlen]
          omega

theorem buildSectionAtoms_textWF (env : Env) (m m' : MCModule)
    (h : buildSectionAtoms env m = some m') (hdis : DisWF env)
    (hm : moduleTextWFb m = true) : moduleTextWFb m' = true := by
  rw [buildSectionAtoms] at h
  have hrec := List.foldlRecOn env.sections
    (fun acc sec => match acc with
      | none => none
      | some m => buildSectionAtomsOne env m sec)
    (motive := fun acc => ∀ m1, acc = some m1 → moduleTextWFb m1 = true)
    (some m)
    (by
      intro m1 he
      rw [Option.some_inj] at he
      subst he
      exact hm)
    (by
      intro acc hacc sec _
      intro m1 he
      dsimp only at he
      split at he
      · cases he
      · rename_i m0
        exact buildSectionAtomsOne_textWF env m0 sec m1 he hdis (hacc m0 rfl))
  exact hrec m' h

theorem buildSectionAtoms_dataWF (env : Env) (m m' : MCModule)
    (h : buildSectionAtoms env m = some m')
    (hm : moduleDataWFb m = true) : moduleDataWFb m' = true := by
  rw [buildSectionAtoms] at h
  have hrec := List.foldlRecOn env.sections
    (fun acc sec => match acc with
      | none => none
      | some m => buildSectionAtomsOne env m sec)
    (motive := fun acc => ∀ m1, acc = some m1 → moduleDataWFb m1 = true)
    (some m)
    (by
      intro m1 he
      rw [Option.some_inj] at he
      subst he
      exact hm)
    (by
      intro acc hacc sec _
      intro m1 he
      dsimp only at he
      split at he
      · cases he
      · rename_i m0
        exact buildSectionAtomsOne_dataWF env m0 sec m1 he (hacc m0 rfl))
  exact hrec m' h

/-- Every module produced by `buildModule` (either branch) has only
well-formed text atoms, given a decoder meeting its contract. -/
theorem buildModule_textWF (env : Env) (gbFuel loopFuel : Nat) (wcfg : Bool)
    (m : MCModule) (h : buildModule env gbFuel loopFuel wcfg = some m)
    (hdis : DisWF env) : moduleTextWFb m = true := by
  rw [buildModule] at h
  dsimp only at h
  have hod0 : odWF { initODState with SectionRegions := buildSectionRegions env } := by
    constructor
    · intro e he
      cases he
    · intro k hk
      cases hk
  split at h
  · exact buildCFG_wf env gbFuel loopFuel _ (buildEmptyModule env) m h hdis rfl hod0
  · exact buildSectionAtoms_textWF env (buildEmptyModule env) m h hdis rfl

/-- Every module produced by the plain `buildModule false` has only
exactly-filled data atoms. -/
theorem buildModule_dataWF (env : Env) (gbFuel loopFuel : Nat)
    (m : MCModule) (h : buildModule env gbFuel loopFuel false = some m) :
    moduleDataWFb m = true := by
  rw [buildModule] at h
  dsimp only at h
  rw [if_neg (by decide : ¬ ((false : Bool) = true))] at h
  exact buildSectionAtoms_dataWF env (buildEmptyModule env) m h rfl

/-- **C7**: in any module `buildModule` returns — whether atoms come from
`buildSectionAtoms`, from the `getBBAt` linear disassembly, or from
splitting — every text atom's instructions start at its begin address,
are contiguous, and end exactly at its end address (given the decoder
contract of spec §6: positive sizes within the queried region). -/
theorem buildModule_text_atoms_chain (env : Env) (gbFuel loopFuel : Nat)
    (wcfg : Bool) (m : MCModule) (hdis : DisWF env)
    (h : buildModule env gbFuel loopFuel wcfg = some m) :
    ∀ t, MCAtom.text t ∈ m.Atoms → t.Insts ≠ [] ∧
      instsOk t.Begin t.Insts = true ∧
      instsEnd t.Begin t.Insts = t.AtomEnd + 1 := by
  intro t ht
  have hw : moduleTextWFb m = true :=
    buildModule_textWF env gbFuel loopFuel wcfg m h hdis
  obtain ⟨h1, h2, h3⟩ := (textAtomWFb_iff t).mp (moduleTextWFb_mem hw ht)
  refine ⟨?_, h2, h3⟩
  intro hnil
  rw [hnil] at h1
  cases h1

/-- A text-only fixture for the C7 witness: one two-byte text section,
every in-range address decoding to a one-byte instruction. -/
def c7Env : Env :=
  ⟨[⟨true, false, 0, 2, some [7, 7], "__text"⟩], [],
   fun r addr => if r.Base ≤ addr ∧ addr + 1 ≤ r.Base + r.Bytes.length
     then .ok 9 1 else .fail 1,
   fun _ => false, fun _ => false, fun _ => false, fun _ => false,
   fun _ _ _ => none, none⟩

def c7M : MCModule :=
  ⟨0, [.text ⟨0, 1, 2, "__text", [⟨9, 0, 1⟩, ⟨9, 1, 1⟩]⟩], []⟩

theorem buildModule_text_atoms_chain_witness :
    DisWF c7Env ∧ (∀ t, MCAtom.text t ∈ c7M.Atoms → t.Insts ≠ [] ∧
      instsOk t.Begin t.Insts = true ∧
      instsEnd t.Begin t.Insts = t.AtomEnd + 1) := by
  have hd : DisWF c7Env := by
    intro r addr inst sz hh
    dsimp only [c7Env] at hh
    split at hh
    · rename_i hc
      cases hh
      exact ⟨Nat.le_refl 1, hc.1, hc.2⟩
    · cases hh
  exact ⟨hd, buildModule_text_atoms_chain c7Env 0 0 false c7M hd rfl⟩

/-- **C8**: in a module built without a CFG, every data atom stores
exactly one byte per address of its range. -/
theorem buildModule_data_atoms_full (env : Env) (gbFuel loopFuel : Nat)
    (m : MCModule) (h : buildModule env gbFuel loopFuel false = some m) :
    ∀ d, MCAtom.data d ∈ m.Atoms →
      d.Data.length = d.AtomEnd + 1 - d.Begin := by
  intro d hd
  have hw : moduleDataWFb m = true := buildModule_dataWF env gbFuel loopFuel m h
  exact ((dataAtomWFb_iff d).mp (moduleDataWFb_mem hw hd)).1

/-- A fixture for the C8 witness: a two-byte text section on which the
decoder always fails, yielding one two-byte data atom. -/
def c8Env : Env :=
  ⟨[⟨true, false, 0, 2, some [1, 2], "__text"⟩], [],
   fun _ _ => .fail 1,
   fun _ => false, fun _ => false, fun _ => false, fun _ => false,
   fun _ _ _ => none, none⟩

def c8M : MCModule := ⟨0, [.data ⟨0, 1, "", [1, 2]⟩], []⟩

theorem buildModule_data_atoms_full_witness :
    (⟨0, 1, "", [1, 2]⟩ : MCDataAtomData).Data.length =
      (⟨0, 1, "", [1, 2]⟩ : MCDataAtomData).AtomEnd + 1 -
        (⟨0, 1, "", [1, 2]⟩ : MCDataAtomData).Begin :=
  buildModule_data_atoms_full c8Env 0 0 c8M rfl ⟨0, 1, "", [1, 2]⟩
    (List.mem_singleton.mpr rfl)


end MCOD
